import Mathlib

set_option linter.unusedVariables false
set_option linter.unnecessarySeqFocus false

/-!
Verification of the EVM-spilling code generator.

The development shallowly embeds the compiler core (`src/codegen.rs`,
`src/evm.rs`, `src/analysis.rs`, `src/program.rs`, `src/scope.rs`):

* machine words (`alloy_primitives::U256`) are modelled as `Nat` — the code
  generator only moves constants around and never computes with them;
* Rust panics (failed `assert!`, `unwrap`, index underflow/overflow) are
  modelled as `Option.none` / `GenRes.fatal`;
* `eyre` user-visible errors are modelled as `GenRes.err msg`;
* the `HashMap<Var, VarMeta>` is modelled as the function
  `Nat → Option VarMeta` (the map is only ever queried pointwise, never
  iterated, so the representation is observationally faithful);
* `Vec` is modelled as `List` with push = append at the tail, except for the
  free-register list whose push/pop pair is LIFO and is modelled with
  cons/head (the same stack discipline).
-/

/-- `scope.rs`: a resolved variable is a dense index (`Var { index: u32 }`). -/
abbrev Var := Nat

/-- `alloy_primitives::U256`, modelled as `Nat`. -/
abbrev U256 := Nat

/-- `program.rs`: `enum Expression<V> { Const(U256), Op(String, Vec<V>) }`,
at the resolved stage (`V = Var`). -/
inductive Expression where
  | Const : U256 → Expression
  | Op : String → List Var → Expression
deriving DecidableEq

/-- `program.rs`: `struct Statement<V>(pub Vec<V>, pub Expression<V>)`. -/
structure Statement where
  ress : List Var
  e : Expression
deriving DecidableEq

/-- `scope.rs`: `struct ResolvedBlock { block: Block<Var>, var_count: usize }`
(`Block` is just a vector of statements). -/
structure ResolvedBlock where
  block : List Statement
  var_count : Nat
deriving DecidableEq

/-- `evm.rs`: `enum DataInstruction { Pop, Mstore, Mload, Add }`. -/
inductive DataInstruction where
  | Pop | Mstore | Mload | Add
deriving DecidableEq

namespace DataInstruction

/-- `evm.rs`: `DataInstruction::arity`, returning `(nargs, nres)`. -/
def arity : DataInstruction → Nat × Nat
  | Pop => (1, 0)
  | Mstore => (2, 0)
  | Mload => (1, 1)
  | Add => (2, 1)

/-- `evm.rs`: `impl FromStr for DataInstruction`; the error is the
`eyre!("Unknown operator: {op}")` message. -/
def from_str (op : String) : Except String DataInstruction :=
  if op = "pop" then .ok Pop
  else if op = "mstore" then .ok Mstore
  else if op = "mload" then .ok Mload
  else if op = "add" then .ok Add
  else .error ("Unknown operator: " ++ op)

end DataInstruction

/-- `evm.rs`: `enum StackInstruction { Dup(usize), Swap(usize), Push(U256) }`. -/
inductive StackInstruction where
  | Dup : Nat → StackInstruction
  | Swap : Nat → StackInstruction
  | Push : U256 → StackInstruction
deriving DecidableEq

/-- `evm.rs`: `enum ControlInstruction` (unimplemented: `Display` is `todo!()`). -/
inductive ControlInstruction where
  | Jump : Nat → ControlInstruction
  | Jumpi : Nat → ControlInstruction
  | Jumpdest
deriving DecidableEq

/-- `evm.rs`: `enum Instruction { Stack(..), Control(..), Data(..) }`. -/
inductive Instruction where
  | Stack : StackInstruction → Instruction
  | Control : ControlInstruction → Instruction
  | Data : DataInstruction → Instruction
deriving DecidableEq

/-- `codegen.rs`: `enum PreStackInstruction`. -/
inductive PreStackInstruction where
  | Rotate : (from_depth : Nat) → (to_depth : Nat) → PreStackInstruction
  | Dup : Nat → PreStackInstruction
  | Push : U256 → PreStackInstruction
deriving DecidableEq

/-- `codegen.rs`: `enum PreInstruction { Stack(..), Data(..) }`. -/
inductive PreInstruction where
  | Stack : PreStackInstruction → PreInstruction
  | Data : DataInstruction → PreInstruction
deriving DecidableEq

/-- `codegen.rs`: `enum VarInstance { Main(Var), Copy(Var) }`. -/
inductive VarInstance where
  | Main : Var → VarInstance
  | Copy : Var → VarInstance
deriving DecidableEq

/-- `codegen.rs`: `struct VarMeta { main_index: usize, copy_index: Option<usize> }`. -/
structure VarMeta where
  main_index : Nat
  copy_index : Option Nat
deriving DecidableEq

/-- The `HashMap<Var, VarMeta>` of the machine, as a pointwise map. -/
abbrev MetaMap := Nat → Option VarMeta

/-- `HashMap::insert` (replacing any previous binding). -/
def metaInsert (mm : MetaMap) (k : Var) (v : VarMeta) : MetaMap :=
  fun x => if x = k then some v else mm x

/-- `HashMap::remove`. -/
def metaRemove (mm : MetaMap) (k : Var) : MetaMap :=
  fun x => if x = k then none else mm x

/-- `codegen.rs`: `struct Machine { code, stack, meta }`. -/
structure Machine where
  code : List PreInstruction
  stack : List VarInstance
  meta : MetaMap

/-- `Vec::swap i j` (both indices must be in bounds; the machine code only
calls it with in-bounds indices, enforced by the checked subtractions that
compute them). -/
def listSwap {α : Type} (l : List α) (i j : Nat) : List α :=
  match l[i]?, l[j]? with
  | some a, some b => (l.set i b).set j a
  | _, _ => l

namespace Machine

/-- `Machine::new`. -/
def new : Machine := { code := [], stack := [], meta := fun _ => none }

/-- `Machine::set_location`.  `none` models the panics: `get_meta(..).unwrap()`
when the variable has no meta, and the `assert!(meta.copy_index.is_none())`
when a `Main` is removed while a copy is still outstanding. -/
def set_location (m : Machine) (inst : VarInstance) (index : Option Nat) :
    Option Machine :=
  match inst with
  | .Main name =>
    match index with
    | some i =>
      match m.meta name with
      | some mt => some { m with meta := metaInsert m.meta name { mt with main_index := i } }
      | none => none
    | none =>
      match m.meta name with
      | some mt =>
        if mt.copy_index = none then some { m with meta := metaRemove m.meta name }
        else none
      | none => none
  | .Copy name =>
    match m.meta name with
    | some mt => some { m with meta := metaInsert m.meta name { mt with copy_index := index } }
    | none => none

/-- `Machine::find`: the depth of a variable's preferred instance
(`copy_index` if set, else `main_index`).  `none` models the meta `unwrap`
and the `stack.len() - 1 - index` underflow panic. -/
def find (m : Machine) (name : Var) : Option Nat :=
  match m.meta name with
  | some mt =>
    let index := mt.copy_index.getD mt.main_index
    if index < m.stack.length then some (m.stack.length - 1 - index) else none
  | none => none

/-- `Machine::pop`: remove the top entry, fix its meta, emit the
`Rotate{0,0}` anchor followed by `Pop`. -/
def pop (m : Machine) : Option Machine :=
  match m.stack.getLast? with
  | some inst => do
    let m1 ← set_location { m with stack := m.stack.dropLast } inst none
    some { m1 with
      code := m1.code ++ [.Stack (.Rotate 0 0), .Data .Pop] }
  | none => none

/-- `Machine::push`. -/
def push (m : Machine) (name : Var) (value : U256) : Machine :=
  let stack := m.stack ++ [.Main name]
  { code := m.code ++ [.Stack (.Push value)]
    stack := stack
    meta := metaInsert m.meta name { main_index := stack.length - 1, copy_index := none } }

/-- `Machine::stack_swap`: swap the entries at the two depths and update
both metas.  `none` models the index-underflow panics. -/
def stack_swap (m : Machine) (from_depth to_depth : Nat) : Option Machine :=
  if h : m.stack.length = 0 then none else
  let top_index := m.stack.length - 1
  if from_depth ≤ top_index ∧ to_depth ≤ top_index then
    let from_index := top_index - from_depth
    let to_index := top_index - to_depth
    match m.stack[from_index]?, m.stack[to_index]? with
    | some from_inst, some to_inst => do
      let m1 := { m with stack := listSwap m.stack from_index to_index }
      let m2 ← set_location m1 from_inst (some to_index)
      set_location m2 to_inst (some from_index)
    | _, _ => none
  else none

/-- `Machine::rotate_to`: the `assert!(to_depth <= 16, "Swap too deep")`
is the outer guard. -/
def rotate_to (m : Machine) (from_name : Var) (to_depth : Nat) : Option Machine :=
  if to_depth ≤ 16 then do
    let from_depth ← m.find from_name
    let m1 ← m.stack_swap from_depth 0
    let m2 ← m1.stack_swap 0 to_depth
    some { m2 with code := m2.code ++ [.Stack (.Rotate from_depth to_depth)] }
  else none

/-- `Machine::copy_to`: the `assert!(to_depth <= 16, "Copy too deep")`
is the outer guard. -/
def copy_to (m : Machine) (from_name : Var) (to_depth : Nat) : Option Machine :=
  if to_depth ≤ 16 then do
    let from_depth ← m.find from_name
    let m1 := { m with stack := m.stack ++ [VarInstance.Copy from_name] }
    let m2 ← m1.set_location (.Copy from_name) (some (m1.stack.length - 1))
    let m3 := { m2 with code := m2.code ++ [.Stack (.Dup from_depth)] }
    if to_depth ≠ 0 then do
      let m4 ← m3.stack_swap 0 to_depth
      some { m4 with code := m4.code ++ [.Stack (.Rotate 0 to_depth)] }
    else
      some m3
  else none

/-- Loop body of `Machine::apply`: `for &instance in &removed { set_location(instance, None) }`. -/
def clear_locations (m : Machine) : List VarInstance → Option Machine
  | [] => some m
  | inst :: rest => do
    let m1 ← m.set_location inst none
    m1.clear_locations rest

/-- Result-meta loop of `Machine::apply`. -/
def insert_ress (m : Machine) (stack_base : Nat) : Nat → List Var → Machine
  | _, [] => m
  | i, name :: rest =>
    insert_ress
      { m with meta := metaInsert m.meta name { main_index := stack_base + i, copy_index := none } }
      stack_base (i + 1) rest

/-- `Machine::apply`: consume `nargs` entries, clear their locations,
push one `Main` per result, emit the data op, register result metas. -/
def apply (m : Machine) (op : DataInstruction) (ress : List Var) : Option Machine :=
  let nargs := op.arity.1
  if nargs ≤ m.stack.length then do
    let stack_base := m.stack.length - nargs
    let removed := m.stack.drop stack_base
    let m1 ← clear_locations { m with stack := m.stack.take stack_base } removed
    let m2 := { m1 with
      stack := m1.stack ++ ress.map VarInstance.Main
      code := m1.code ++ [.Data op] }
    some (insert_ress m2 stack_base 0 ress)
  else none

end Machine

/-- `analysis.rs`: `count_occurrences` — one count per variable index;
`none` models the `counts[x.index()] += 1` out-of-bounds panic. -/
def bumpCounts (counts : List Nat) : List Var → Option (List Nat)
  | [] => some counts
  | x :: rest =>
    match counts[x]? with
    | some c => bumpCounts (counts.set x (c + 1)) rest
    | none => none

/-- `analysis.rs`: the per-statement loop of `count_occurrences`. -/
def countStatements (counts : List Nat) : List Statement → Option (List Nat)
  | [] => some counts
  | ⟨_, .Const _⟩ :: rest => countStatements counts rest
  | ⟨_, .Op _ args⟩ :: rest => do
    let counts' ← bumpCounts counts args
    countStatements counts' rest

/-- `analysis.rs`: `count_occurrences`. -/
def count_occurrences (rblock : ResolvedBlock) : Option (List Nat) :=
  countStatements (List.replicate rblock.var_count 0) rblock.block

/-- Outcome of a compilation step: `ok` is Rust's `Ok`, `err` a user-visible
`eyre` error with its message, `fatal` a panic (failed assertion/unwrap). -/
inductive GenRes (α : Type) where
  | ok : α → GenRes α
  | err : String → GenRes α
  | fatal : GenRes α
deriving DecidableEq

def GenRes.bind {α β : Type} : GenRes α → (α → GenRes β) → GenRes β
  | .ok a, f => f a
  | .err m, _ => .err m
  | .fatal, _ => .fatal

instance : Monad GenRes where
  pure := GenRes.ok
  bind := GenRes.bind

/-- Lift a panicking (`Option`-valued) computation into `GenRes`. -/
def liftO {α : Type} : Option α → GenRes α
  | some a => .ok a
  | none => .fatal

/-- `codegen.rs` lines 315-323: the `dups` computation of `generate` —
thread the occurrence counts through the argument list, decrementing each
count before testing it, and collect the per-position `dup` flags together
with their total `ndups`.  `none` models the `occurs[..]` out-of-bounds
panic and the `usize` decrement underflow. -/
def computeDups (occurs : List Nat) : List Var → Option (List Nat × List Bool × Nat)
  | [] => some (occurs, [], 0)
  | a :: rest =>
    match occurs[a]? with
    | some c =>
      if c = 0 then none
      else
        match computeDups (occurs.set a (c - 1)) rest with
        | some (occurs'', ds, nd) =>
          some (occurs'', decide (c - 1 > 0) :: ds, (if c - 1 > 0 then 1 else 0) + nd)
        | none => none
    | none => none

/-- `codegen.rs` lines 325-333: the argument-staging loop of `generate`.
`items` is `args.iter().zip(dups).enumerate().rev()` and `nd` the running
`ndups` counter. -/
def stageArgs (m : Machine) (nd : Nat) : List (Nat × Var × Bool) → Option Machine
  | [] => some m
  | (i, arg, dup) :: rest =>
    let nd' := if dup then nd - 1 else nd
    let to_depth := i - nd'
    match (if dup then m.copy_to arg to_depth else m.rotate_to arg to_depth) with
    | some m' => stageArgs m' nd' rest
    | none => none

/-- `codegen.rs` lines 339-344: the dead-result sweep of `generate`
(over `ress.iter().rev()`). -/
def deadSweep (occurs : List Nat) (m : Machine) : List Var → Option Machine
  | [] => some m
  | r :: rest =>
    match occurs[r]? with
    | some c =>
      if c = 0 then do
        let m1 ← m.rotate_to r 0
        let m2 ← m1.pop
        deadSweep occurs m2 rest
      else deadSweep occurs m rest
    | none => none

/-- `codegen.rs` lines 300-345: processing of one statement by `generate`
(scheduling only). -/
def schedStatement (occurs : List Nat) (m : Machine) (st : Statement) :
    GenRes (List Nat × Machine) :=
  match st.e with
  | .Const c =>
    match st.ress with
    | [name] => do
      let m1 := m.push name c
      let m2 ← liftO (deadSweep occurs m1 st.ress.reverse)
      return (occurs, m2)
    | _ => .err "Wrong number of results"
  | .Op op args =>
    match DataInstruction.from_str op with
    | .error msg => .err msg
    | .ok opI =>
      let (nargs, nres) := opI.arity
      if args.length ≠ nargs then .err "Wrong number of arguments"
      else if st.ress.length ≠ nres then .err "Wrong number of results"
      else do
        let (occurs', dups, ndups) ← liftO (computeDups occurs args)
        let m1 ← liftO (stageArgs m ndups ((args.zip dups).enum.reverse))
        let m2 ← liftO (m1.apply opI st.ress)
        let m3 ← liftO (deadSweep occurs' m2 st.ress.reverse)
        return (occurs', m3)

/-- The statement loop of `generate`. -/
def schedStatements (occurs : List Nat) (m : Machine) :
    List Statement → GenRes (List Nat × Machine)
  | [] => .ok (occurs, m)
  | st :: rest => do
    let (occurs', m') ← schedStatement occurs m st
    schedStatements occurs' m' rest

/-- `codegen.rs`: `struct SpillLocation { code_index: usize, depth: usize }`. -/
structure SpillLocation where
  code_index : Nat
  depth : Nat
deriving DecidableEq

/-- `codegen.rs`: `struct Spill { location: SpillLocation, outward: bool }`. -/
structure Spill where
  location : SpillLocation
  outward : Bool
deriving DecidableEq

/-- `codegen.rs` (inside `make_spills`): `enum SpillStatus`. -/
inductive SpillStatus where
  | Unspillable
  | MaybeSpilled : SpillLocation → SpillStatus
  | Spilled
  | MaybeRestored : SpillLocation → SpillStatus
  | Restored
deriving DecidableEq

/-- `SpillStatus::set_reachable_at`; `none` models the
`assert!(location.depth < 16)` and the `Restored => panic!` arm. -/
def set_reachable_at (s : SpillStatus) (location : SpillLocation) : Option SpillStatus :=
  if location.depth < 16 then
    match s with
    | .Unspillable => some .Unspillable
    | .MaybeSpilled _ => some (.MaybeSpilled location)
    | .Spilled => some (.MaybeRestored location)
    | .MaybeRestored l => some (.MaybeRestored l)
    | .Restored => none
  else none

/-- `codegen.rs` (inside `make_spills`): `struct State { stack, spills }`. -/
structure SpillState where
  stack : List SpillStatus
  spills : List Spill
deriving DecidableEq

/-- `State::ensure_reachable`; `none` models the `Unspillable` /
`Restored` panics and the index underflow. -/
def ensure_reachable (st : SpillState) (depth : Nat) : Option SpillState :=
  if depth ≥ 16 then
    if depth < st.stack.length then
      match st.stack[st.stack.length - 1 - depth]? with
      | some .Unspillable => none
      | some (.MaybeSpilled l) =>
        some { stack := st.stack.set (st.stack.length - 1 - depth) .Spilled
               spills := st.spills ++ [{ location := l, outward := true }] }
      | some .Spilled => some st
      | some (.MaybeRestored _) =>
        some { st with stack := st.stack.set (st.stack.length - 1 - depth) .Spilled }
      | some .Restored => none
      | none => none
    else none
  else some st

/-- The `DataOp` drain of `make_spills`: emit an inward spill for every
`MaybeRestored` status, panic on a consumed-but-unrestored `Spilled`. -/
def drainSpills (spills : List Spill) : List SpillStatus → Option (List Spill)
  | [] => some spills
  | .MaybeRestored l :: rest =>
    drainSpills (spills ++ [{ location := l, outward := false }]) rest
  | .Spilled :: _ => none
  | _ :: rest => drainSpills spills rest

/-- The status adjustment of the `Rotate` arm of `make_spills`
(`codegen.rs` lines 225-233): in-window sources advance their reachable
location; out-of-window sources exchange the memory-backing relationship
with the top slot. -/
def rotateAdjust (k : Nat) (st1 : SpillState)
    (from_depth to_depth from_index top_index : Nat) : Option SpillState :=
  if from_depth < 16 then
    match st1.stack[from_index]? with
    | some s =>
      match set_reachable_at s { code_index := k, depth := to_depth } with
      | some s' => some { st1 with stack := st1.stack.set from_index s' }
      | none => none
    | none => none
  else
    match st1.stack[top_index]?, st1.stack[from_index]? with
    | some topS, some fromS =>
      if topS = .Unspillable then none
      else
        if (st1.stack.set top_index .Spilled)[from_index]? = some .Spilled then
          some { st1 with
            stack := (st1.stack.set top_index .Spilled).set from_index .Restored }
        else none
    | _, _ => none

/-- The status adjustment of the `Dup` arm of `make_spills`
(`codegen.rs` lines 241-244). -/
def dupAdjust (k : Nat) (st1 : SpillState) (depth : Nat) : Option SpillState :=
  if depth + 1 < 16 then
    if depth < st1.stack.length then
      match st1.stack[st1.stack.length - 1 - depth]? with
      | some s =>
        match set_reachable_at s { code_index := k, depth := depth + 1 } with
        | some s' => some { st1 with stack := st1.stack.set (st1.stack.length - 1 - depth) s' }
        | none => none
      | none => none
    else none
  else some st1

/-- One iteration of the `make_spills` loop, at pre-instruction `code_index`. -/
def spillStep (code_index : Nat) (st : SpillState) : PreInstruction → Option SpillState
  | .Stack (.Rotate from_depth to_depth) =>
    if to_depth < 16 then
      if st.stack.length = 0 then none else
      if from_depth ≤ st.stack.length - 1 ∧ to_depth ≤ st.stack.length - 1 then
        match ensure_reachable st from_depth with
        | some st1 =>
          match rotateAdjust code_index st1 from_depth to_depth
              (st.stack.length - 1 - from_depth) (st.stack.length - 1) with
          | some st2 =>
            some { st2 with
              stack := listSwap
                (listSwap st2.stack (st.stack.length - 1 - from_depth) (st.stack.length - 1))
                (st.stack.length - 1) (st.stack.length - 1 - to_depth) }
          | none => none
        | none => none
      else none
    else none
  | .Stack (.Dup depth) =>
    match ensure_reachable st depth with
    | some st1 =>
      match dupAdjust code_index st1 depth with
      | some st2 => some { st2 with stack := st2.stack ++ [.Unspillable] }
      | none => none
    | none => none
  | .Stack (.Push _) =>
    some { st with
      stack := st.stack ++ [.MaybeSpilled { code_index := code_index, depth := 0 }] }
  | .Data op =>
    if op.arity.1 ≤ st.stack.length then
      match drainSpills st.spills (st.stack.drop (st.stack.length - op.arity.1)) with
      | some spills' =>
        some { stack := st.stack.take (st.stack.length - op.arity.1) ++
                 ((List.range op.arity.2).reverse.map fun depth =>
                   .MaybeSpilled { code_index := code_index, depth := depth })
               spills := spills' }
      | none => none
    else none

/-- The `make_spills` loop over the pre-instruction stream. -/
def makeSpillsAux (code_index : Nat) (st : SpillState) :
    List PreInstruction → Option SpillState
  | [] => some st
  | instr :: rest =>
    match spillStep code_index st instr with
    | some st' => makeSpillsAux (code_index + 1) st' rest
    | none => none

/-- Key order used by `state.spills.sort_unstable_by_key(|s| s.location.code_index)`. -/
def spillLE (a b : Spill) : Prop := a.location.code_index ≤ b.location.code_index

instance : DecidableRel spillLE := fun a b => Nat.decLe _ _

instance : IsTotal Spill spillLE :=
  ⟨fun a b => Nat.le_total a.location.code_index b.location.code_index⟩

instance : IsTrans Spill spillLE :=
  ⟨fun _ _ _ hab hbc => Nat.le_trans hab hbc⟩

/-- `codegen.rs`: `make_spills`.  The sort models
`sort_unstable_by_key(|s| s.location.code_index)`: as proved below the
code indices of the collected spills are pairwise distinct whenever the
planner succeeds, so every sorting algorithm produces the same list and an
insertion sort is an exact model. -/
def make_spills (machine : Machine) : Option (List Spill) :=
  match makeSpillsAux 0 { stack := [], spills := [] } machine.code with
  | some st => some (st.spills.insertionSort spillLE)
  | none => none

/-- `codegen.rs`: `register_store` — `[Push(register*32), Mstore]`. -/
def register_store (register : Nat) : List Instruction :=
  [.Stack (.Push (register * 32)), .Data .Mstore]

/-- `codegen.rs`: `register_load` — `[Push(register*32), Mload]`. -/
def register_load (register : Nat) : List Instruction :=
  [.Stack (.Push (register * 32)), .Data .Mload]

/-- State threaded through the lowering loop of `generate`:
the emitted code chunk, the physical stack (`None` = genuine stack value,
`Some r` = the slot lives in register `r`), `register_count`, and the
free-register list. -/
structure LowerState where
  stack : List (Option Nat)
  register_count : Nat
  free_registers : List Nat
deriving DecidableEq

/-- The out-of-window source branch of the `Rotate` lowering
(`codegen.rs` lines 384-397): load the spilled source, `SWAP(1)`, exchange
registers if the displaced top itself lives in a register, and store the
displaced value back into the source's register. -/
def rotateDeepLower (ls : LowerState) (from_depth from_index top_index : Nat) :
    Option (List Instruction × LowerState) :=
  match ls.stack[from_index]? with
  | some (some from_register) =>
    if from_depth ≠ 0 then
      match ls.stack[top_index]? with
      | some (some top_register) =>
        some (register_load from_register ++ [.Stack (.Swap 1)] ++
                (register_load top_register ++ [.Stack (.Swap 1)] ++
                  register_store top_register) ++
                register_store from_register,
              { ls with stack := ls.stack.set top_index none
                        free_registers := top_register :: ls.free_registers })
      | some none =>
        some (register_load from_register ++ [.Stack (.Swap 1)] ++
                register_store from_register, ls)
      | none => none
    else
      some (register_load from_register ++ [.Stack (.Swap 1)] ++
              register_store from_register, ls)
  | _ => none

/-- The first leg of the `Rotate` lowering (`codegen.rs` lines 379-397):
an in-window source swaps to the top (nothing for depth 0); an
out-of-window source goes through the register exchange. -/
def rotateLowerPart1 (ls : LowerState) (from_depth from_index top_index : Nat) :
    Option (List Instruction × LowerState) :=
  if from_depth < 16 then
    if from_depth > 0 then
      some ([.Stack (.Swap from_depth)],
            { ls with stack := listSwap ls.stack from_index top_index })
    else
      some ([], ls)
  else
    rotateDeepLower ls from_depth from_index top_index

/-- Lowering of one pre-instruction (`codegen.rs` lines 373-434): returns
the emitted instructions and the updated physical state. -/
def lowerInstr (instr : PreInstruction) (ls : LowerState) :
    Option (List Instruction × LowerState) :=
  match instr with
  | .Stack (.Rotate from_depth to_depth) =>
    if from_depth ≠ to_depth then
      if ls.stack.length = 0 then none else
      if from_depth ≤ ls.stack.length - 1 ∧ to_depth ≤ ls.stack.length - 1 then
        match rotateLowerPart1 ls from_depth (ls.stack.length - 1 - from_depth)
            (ls.stack.length - 1) with
        | some (code1, ls1) =>
          if to_depth > 0 then
            some (code1 ++ [.Stack (.Swap to_depth)],
                  { ls1 with stack := (listSwap ls1.stack (ls.stack.length - 1)
                      (ls.stack.length - 1 - to_depth)) })
          else
            some (code1, ls1)
        | none => none
      else none
    else
      -- `assert_eq!(from_depth, to_depth)` holds by the arm guard: anchor only.
      some ([], ls)
  | .Stack (.Dup depth) =>
    if depth < ls.stack.length then
      match ls.stack[ls.stack.length - 1 - depth]? with
      | some (some register) =>
        some (register_load register, { ls with stack := ls.stack ++ [none] })
      | some none =>
        if depth < 16 then
          some ([.Stack (.Dup depth)], { ls with stack := ls.stack ++ [none] })
        else none
      | none => none
    else none
  | .Stack (.Push c) =>
    some ([.Stack (.Push c)], { ls with stack := ls.stack ++ [none] })
  | .Data op =>
    if op.arity.1 ≤ ls.stack.length then
      if (ls.stack.drop (ls.stack.length - op.arity.1)).all (· = none) then
        some ([.Data op],
              { ls with stack := ls.stack.take (ls.stack.length - op.arity.1) ++
                  List.replicate op.arity.2 none })
      else none
    else none

/-- Register bookkeeping of one spill record (`codegen.rs` lines 439-453):
an outward spill allocates a register for an empty slot; an inward restore
frees the slot's register. -/
def spillRegister (ls : LowerState) (outward : Bool) (index : Nat) :
    Option (Nat × LowerState) :=
  if outward then
    match ls.stack[index]? with
    | some none =>
      match ls.free_registers with
      | r :: fr =>
        some (r, { ls with stack := ls.stack.set index (some r), free_registers := fr })
      | [] =>
        some (ls.register_count,
              { ls with stack := ls.stack.set index (some ls.register_count)
                        register_count := ls.register_count + 1 })
    | _ => none
  else
    match ls.stack[index]? with
    | some (some register) =>
      some (register, { ls with stack := ls.stack.set index none
                                free_registers := register :: ls.free_registers })
    | _ => none

/-- Materialisation of the spill records attached to one pre-instruction
(`codegen.rs` lines 436-458). -/
def lowerSpills (ls : LowerState) : List Spill → Option (List Instruction × LowerState)
  | [] => some ([], ls)
  | ⟨location, outward⟩ :: rest =>
    if location.depth < ls.stack.length then
      match spillRegister ls outward (ls.stack.length - 1 - location.depth) with
      | some (register, ls1) =>
        match lowerSpills ls1 rest with
        | some (tail, ls2) =>
          some (register_load register ++ [.Stack (.Swap (location.depth + 1))] ++
                  register_store register ++ tail, ls2)
        | none => none
      | none => none
    else none

/-- The spill-window bounds of `codegen.rs` lines 363-371: the first index
`≥ lo` whose spill satisfies `p`, or `spills.length`. -/
def spillBound (spills : List Spill) (lo : Nat) (p : Spill → Bool) : Nat :=
  match (spills.drop lo).findIdx? p with
  | some i => lo + i
  | none => spills.length

/-- The updated `spills_end` cursor after processing `code_index`. -/
def spillWindowEnd (spills : List Spill) (code_index spills_end : Nat) : Nat :=
  spillBound spills
    (spillBound spills spills_end (fun s => code_index ≤ s.location.code_index))
    (fun s => code_index < s.location.code_index)

/-- The `instr_spills` slice attached to `code_index`. -/
def spillWindow (spills : List Spill) (code_index spills_end : Nat) : List Spill :=
  (spills.drop
      (spillBound spills spills_end (fun s => code_index ≤ s.location.code_index))).take
    (spillWindowEnd spills code_index spills_end -
      spillBound spills spills_end (fun s => code_index ≤ s.location.code_index))

/-- The lowering loop of `generate` (lines 362-459), threading the running
`spills_end` cursor. -/
def lowerAux (spills : List Spill) :
    List PreInstruction → Nat → Nat → LowerState → Option (List Instruction)
  | [], _, _, _ => some []
  | instr :: rest, code_index, spills_end, ls =>
    match lowerInstr instr ls with
    | some (chunk1, ls1) =>
      match lowerSpills ls1 (spillWindow spills code_index spills_end) with
      | some (chunk2, ls2) =>
        match lowerAux spills rest (code_index + 1)
            (spillWindowEnd spills code_index spills_end) ls2 with
        | some tail => some (chunk1 ++ chunk2 ++ tail)
        | none => none
      | none => none
    | none => none

/-- The lowering pass of `generate`: replay the pre-instruction stream
against the sorted spill list. -/
def lower (code : List PreInstruction) (spills : List Spill) : Option (List Instruction) :=
  lowerAux spills code 0 0 { stack := [], register_count := 0, free_registers := [] }

/-- `codegen.rs`: `pub fn generate` — liveness counting, scheduling,
spill planning, lowering. -/
def generate (rblock : ResolvedBlock) : GenRes (List Instruction) := do
  let occurs ← liftO (count_occurrences rblock)
  let (_, machine) ← schedStatements occurs Machine.new rblock.block
  let spills ← liftO (make_spills machine)
  let code ← liftO (lower machine.code spills)
  return code

/-- `ruint`'s `Uint::bit_len` (used by `evm.rs` through
`alloy_primitives::U256::byte_len`): the number of significant bits. -/
def bit_len (c : U256) : Nat := if c = 0 then 0 else Nat.log2 c + 1

/-- `ruint`'s `Uint::byte_len`: `(bit_len + 7) / 8`. -/
def byte_len (c : U256) : Nat := (bit_len c + 7) / 8

/-- `evm.rs`: `impl Display for Instruction`.  `none` models the `todo!()`
on control instructions. -/
def Instruction.fmt : Instruction → Option String
  | .Stack (.Dup i) => some ("dup" ++ toString (i + 1))
  | .Stack (.Swap i) => some ("swap" ++ toString i)
  | .Stack (.Push c) =>
    if c = 0 then some "push0"
    else some ("push" ++ toString (byte_len c) ++ " " ++ toString c)
  | .Data .Pop => some "pop"
  | .Data .Mstore => some "mstore"
  | .Data .Mload => some "mload"
  | .Data .Add => some "add"
  | .Control _ => none

/-- The input contract of §6, as a decidable check: results across the
block are exactly the dense indices `0..var_count` in definition order
(hence every variable is produced by exactly one statement), every
argument refers to a variable produced by an earlier statement, and every
operator is in the arity table with matching argument / result counts. -/
def validAux (seen : List Var) : List Statement → Bool
  | [] => true
  | st :: rest =>
    (match st.e with
     | .Const _ => decide (st.ress.length = 1)
     | .Op op args =>
       (match DataInstruction.from_str op with
        | .ok opI => args.all (seen.contains ·) &&
            decide (args.length = opI.arity.1) && decide (st.ress.length = opI.arity.2)
        | .error _ => false)) &&
    validAux (seen ++ st.ress) rest

/-- Whole-block validity (the hypothesis of C2). -/
def blockValid (rb : ResolvedBlock) : Bool :=
  decide (rb.block.flatMap (·.ress) = List.range rb.var_count) && validAux [] rb.block

/-- The spec's own scenario *S3*: `let a = const 3; let b = add a a;`
followed by a pop of the (otherwise dead) result. -/
def s3Block : ResolvedBlock :=
  ⟨[⟨[0], .Const 3⟩, ⟨[1], .Op "add" [0, 0]⟩, ⟨[], .Op "pop" [1]⟩], 2⟩

/-- The block exercising two simultaneous copies:
`let a = const 3; let b = add a a; mstore a b;`. -/
def twoCopyBlock : ResolvedBlock :=
  ⟨[⟨[0], .Const 3⟩, ⟨[1], .Op "add" [0, 0]⟩, ⟨[], .Op "mstore" [0, 1]⟩], 2⟩

/-- The pre-instruction stream that `generate` schedules for a block
(the `machine.code` value handed to the spill planner and the lowering). -/
def preStream (rblock : ResolvedBlock) : GenRes (List PreInstruction) := do
  let occurs ← liftO (count_occurrences rblock)
  let (_, machine) ← schedStatements occurs Machine.new rblock.block
  return machine.code

/-- `let a = const 1; let b = const 2; pop a; pop b;` — popping `a` from
depth 1 makes the scheduler emit `Rotate{1,0}` directly before the
user-level `Pop` data instruction. -/
def c7Block : ResolvedBlock :=
  ⟨[⟨[0], .Const 1⟩, ⟨[1], .Const 2⟩, ⟨[], .Op "pop" [0]⟩, ⟨[], .Op "pop" [1]⟩], 2⟩

/-- The pre-instruction stream of `c7Block`. -/
def c7Stream : List PreInstruction :=
  [.Stack (.Push 1), .Stack (.Push 2), .Stack (.Rotate 1 0), .Data .Pop,
   .Stack (.Rotate 0 0), .Data .Pop]

/-- The user-visible failure conditions listed by the spec, per statement:
a `Const` whose result list is not a singleton, an unknown operator name,
and operator arity mismatches — each with the descriptive message the code
reports.  (This is the spec-side characterization that C8 compares the
code against.) -/
def stmtUserCheck (st : Statement) : Option String :=
  match st.e with
  | .Const _ =>
    if st.ress.length = 1 then none else some "Wrong number of results"
  | .Op op args =>
    match DataInstruction.from_str op with
    | .error msg => some msg
    | .ok opI =>
      if args.length ≠ opI.arity.1 then some "Wrong number of arguments"
      else if st.ress.length ≠ opI.arity.2 then some "Wrong number of results"
      else none

/-- A block whose second statement names an unknown operator. -/
def c8Block : ResolvedBlock :=
  ⟨[⟨[0], .Const 1⟩, ⟨[1], .Op "foo" []⟩, ⟨[2], .Const 2⟩], 3⟩

/-- Spec-side dup flag (C3): argument position `i` is duplicated exactly
when the variable still has a use left after this occurrence — the
original count minus the occurrences up to and including position `i`
is positive. -/
def specDup (occurs : List Nat) (args : List Var) (i : Nat) : Bool :=
  decide (0 < occurs.getD (args.getD i 0) 0 - ((args.take (i + 1)).count (args.getD i 0)))

/-- Spec-side staging plan (C3): positions from last to first; the running
counter after the decrement at position `i` equals the number of dup
positions strictly below `i`, so the target depth is
`i - count-of-dups-below-i`; a dup position is placed with `copy_to`, a
non-dup position with `rotate_to`. -/
def specPlan (args : List Var) (ds : List Bool) : List (Bool × Var × Nat) :=
  ((List.range args.length).reverse).map fun i =>
    (ds.getD i false, args.getD i 0, i - ((ds.take i).count true))

/-- Executor of a staging plan: perform `copy_to`/`rotate_to` per entry. -/
def execPlan (m : Machine) : List (Bool × Var × Nat) → Option Machine
  | [] => some m
  | (dup, arg, d) :: rest =>
    match (if dup then m.copy_to arg d else m.rotate_to arg d) with
    | some m' => execPlan m' rest
    | none => none

/-- The `Rotate` precondition the spill planner asserts per instruction. -/
def rotOk : PreInstruction → Prop
  | .Stack (.Rotate _ t) => t < 16
  | _ => True

/-- Statuses carry only in-window locations. -/
def locDepthOk : SpillStatus → Prop
  | .MaybeSpilled l => l.depth < 16
  | .MaybeRestored l => l.depth < 16
  | _ => True

/-- Planner-state invariant: every recorded location is in-window. -/
def stateDepthOk (st : SpillState) : Prop :=
  (∀ s ∈ st.stack, locDepthOk s) ∧ (∀ sp ∈ st.spills, sp.location.depth < 16)

/-- Bound predicate on emitted instructions: duplicates reach at most
depth 15, swaps are between 1 and `sw`. -/
def dupSwapBound (sw : Nat) : Instruction → Prop
  | .Stack (.Dup d) => d ≤ 15
  | .Stack (.Swap d) => 1 ≤ d ∧ d ≤ sw
  | _ => True

/-- Witness block for C1/C10: `let a = const 1; pop a;`. -/
def c1Block : ResolvedBlock := ⟨[⟨[0], .Const 1⟩, ⟨[], .Op "pop" [0]⟩], 1⟩

/-- Tagged variant of the lowering loop: identical control flow, but each
emitted instruction carries `true` when it was emitted by the
spill-materialisation block and `false` when it came from the main
instruction dispatch. -/
def lowerAuxT (spills : List Spill) :
    List PreInstruction → Nat → Nat → LowerState → Option (List (Instruction × Bool))
  | [], _, _, _ => some []
  | instr :: rest, code_index, spills_end, ls =>
    match lowerInstr instr ls with
    | some (chunk1, ls1) =>
      match lowerSpills ls1 (spillWindow spills code_index spills_end) with
      | some (chunk2, ls2) =>
        match lowerAuxT spills rest (code_index + 1)
            (spillWindowEnd spills code_index spills_end) ls2 with
        | some tail =>
          some (chunk1.map (fun x => (x, false)) ++ chunk2.map (fun x => (x, true)) ++ tail)
        | none => none
      | none => none
    | none => none

/-- The code index recorded in a status' location, if any. -/
def statusCI : SpillStatus → Option Nat
  | .MaybeSpilled l => some l.code_index
  | .MaybeRestored l => some l.code_index
  | _ => none

/-- All code indices tracked by the status stack. -/
def cisStack (l : List SpillStatus) : List Nat := l.filterMap statusCI

/-- All code indices tracked by the planner state: statuses plus already
emitted spill records. -/
def stateCIs (st : SpillState) : List Nat :=
  cisStack st.stack ++ st.spills.map (fun sp => sp.location.code_index)

/-- The inward spill record a drained status contributes, if any. -/
def restoredSpill : SpillStatus → Option Spill
  | .MaybeRestored l => some { location := l, outward := false }
  | _ => none

/-- Planner invariant at instruction `k`: all tracked code indices are
pairwise distinct and smaller than `k`. -/
def spillInv (k : Nat) (st : SpillState) : Prop :=
  (stateCIs st).Nodup ∧ ∀ c ∈ stateCIs st, c < k

/-- A machine whose stream pushes 17 values and then rotates the deepest
one to the top: the planner emits a real (outward) spill. -/
def c5Machine : Machine :=
  ⟨(List.range 17).map (fun i => .Stack (.Push (i + 1))) ++
    [.Stack (.Rotate 16 0), .Data .Pop], [], fun _ => none⟩

/-- `byte_len` is really "the minimal number of bytes needed": these two
bounds pin it down for nonzero values. -/
theorem byte_len_spec (c : U256) (hc : c ≠ 0) :
    c < 256 ^ byte_len c ∧ 256 ^ (byte_len c - 1) ≤ c := by
  have hlog : 2 ^ Nat.log2 c ≤ c := Nat.log2_self_le hc
  have hlog2 : c < 2 ^ (Nat.log2 c + 1) := Nat.lt_log2_self
  unfold byte_len bit_len
  rw [if_neg hc]
  set l := Nat.log2 c with hl
  have hdiv : l = 8 * (l / 8) + l % 8 := (Nat.div_add_mod l 8).symm
  have hmod : l % 8 < 8 := Nat.mod_lt _ (by norm_num)
  constructor
  · calc c < 2 ^ (l + 1) := hlog2
      _ ≤ 2 ^ (8 * ((l + 1 + 7) / 8)) := by
          apply Nat.pow_le_pow_right (by norm_num)
          omega
      _ = 256 ^ ((l + 1 + 7) / 8) := by
          rw [Nat.pow_mul]
  · calc 256 ^ ((l + 1 + 7) / 8 - 1) = 2 ^ (8 * ((l + 1 + 7) / 8 - 1)) := by
          rw [Nat.pow_mul]
      _ ≤ 2 ^ l := by
          apply Nat.pow_le_pow_right (by norm_num)
          omega
      _ ≤ c := hlog

/-- **C9.** Instruction display formatting: `Dup(d)` prints as `dup{d+1}`,
`Swap(d)` prints as `swap{d}`, a zero push prints as `push0`, a nonzero
push prints as `push{byte_length}` followed by the decimal value, and the
data instructions print as `pop`, `mstore`, `mload`, `add`. -/
theorem display_formatting :
    (∀ d : Nat, Instruction.fmt (.Stack (.Dup d)) = some ("dup" ++ toString (d + 1))) ∧
    (∀ d : Nat, Instruction.fmt (.Stack (.Swap d)) = some ("swap" ++ toString d)) ∧
    (Instruction.fmt (.Stack (.Push 0)) = some "push0") ∧
    (∀ c : U256, c ≠ 0 →
      Instruction.fmt (.Stack (.Push c)) =
        some ("push" ++ toString (byte_len c) ++ " " ++ toString c) ∧
      c < 256 ^ byte_len c ∧ 256 ^ (byte_len c - 1) ≤ c) ∧
    (Instruction.fmt (.Data .Pop) = some "pop") ∧
    (Instruction.fmt (.Data .Mstore) = some "mstore") ∧
    (Instruction.fmt (.Data .Mload) = some "mload") ∧
    (Instruction.fmt (.Data .Add) = some "add") := by
  refine ⟨fun d => rfl, fun d => rfl, rfl, fun c hc => ?_, rfl, rfl, rfl, rfl⟩
  refine ⟨?_, byte_len_spec c hc⟩
  simp [Instruction.fmt, hc]

/-- Witness for C9's hypothesis-bearing component, at `c = 300`
(`byte_len 300 = 2`, printed `push2 300`). -/
theorem display_formatting_witness :
    Instruction.fmt (.Stack (.Push 300)) = some ("push" ++ toString (byte_len 300) ++ " " ++ toString 300) ∧
    (300 : U256) < 256 ^ byte_len 300 ∧ 256 ^ (byte_len 300 - 1) ≤ 300 :=
  (display_formatting.2.2.2.1 300 (by decide))

/-- **C6.** The spill planner is deterministic: it depends only on the
pre-instruction stream, so two machines with the same stream (in
particular, the same machine twice) produce identical spill lists. -/
theorem make_spills_deterministic (m1 m2 : Machine) (h : m1.code = m2.code) :
    make_spills m1 = make_spills m2 := by
  unfold make_spills
  rw [h]

/-- Witness for C6: two machines that differ everywhere except in their
code stream get the same spill list. -/
theorem make_spills_deterministic_witness :
    (Machine.mk [.Stack (.Push 7)] [] (fun _ => none)).code =
      (Machine.mk [.Stack (.Push 7)] [.Main 0] (fun _ => some ⟨0, none⟩)).code ∧
    make_spills (Machine.mk [.Stack (.Push 7)] [] (fun _ => none)) =
      make_spills (Machine.mk [.Stack (.Push 7)] [.Main 0] (fun _ => some ⟨0, none⟩)) :=
  ⟨rfl, make_spills_deterministic _ _ rfl⟩

/-- **C2** (refuted: code bug).  The block of scenario S3 satisfies the
full input contract, yet `generate` hits the
`assert!(meta.copy_index.is_none())` panic in `set_location`: the
statement `add a a` stages a `Copy(a)` for its first argument (the second
occurrence keeps `a` live within the same statement), and `apply` then
removes the `Main(a)` entry while that copy is still outstanding. -/
theorem generate_fatal_on_s3 :
    blockValid s3Block = true ∧ generate s3Block = GenRes.fatal := by
  constructor
  · rfl
  · rfl

/-- **C4** (refuted: code bug).  While scheduling the valid block
`let a = const 3; let b = add a a; mstore a b;` (which compiles
successfully end to end), the argument staging of `add a a` performs
`copy_to(a, 0)` twice in a row — exactly the calls the scheduler makes,
both `dup` flags being true — leaving **two** `Copy(a)` entries on the
abstract stack simultaneously, refuting the at-most-one-`Copy`
invariant. -/
theorem two_copies_simultaneously :
    blockValid twoCopyBlock = true ∧
    generate twoCopyBlock =
      GenRes.ok [.Stack (.Push 3), .Stack (.Dup 0), .Stack (.Dup 0), .Data .Add,
                 .Stack (.Swap 1), .Data .Mstore] ∧
    computeDups [3, 1] [0, 0] = some ([1, 1], [true, true], 2) ∧
    (((Machine.new.push 0 3).copy_to 0 0).bind (·.copy_to 0 0)).map
        (fun m => m.stack.countP (· == VarInstance.Copy 0)) = some 2 := by
  refine ⟨rfl, ?_, rfl, rfl⟩
  rfl

/-- **C7, counterexample.**  `Machine::pop` always emits the `Rotate{0,0}`
anchor, but a `Pop` *data operator* written by the user reaches the stream
through `apply` without any anchor: in `c7Block`'s stream the `Pop` at
index 3 is immediately preceded by `Rotate{1,0}`, not `Rotate{0,0}`. -/
theorem pop_anchor_counterexample :
    blockValid c7Block = true ∧
    preStream c7Block = .ok c7Stream ∧
    c7Stream[3]? = some (.Data .Pop) ∧
    c7Stream[2]? = some (.Stack (.Rotate 1 0)) ∧
    (PreInstruction.Stack (.Rotate 1 0)) ≠ .Stack (.Rotate 0 0) := by
  refine ⟨rfl, ?_, rfl, rfl, by decide⟩
  rfl

/-- `set_location` only rewrites the meta map: code and stack are
untouched. -/
theorem set_location_preserves (m : Machine) (inst : VarInstance) (idx : Option Nat)
    (m' : Machine) (h : m.set_location inst idx = some m') :
    m'.code = m.code ∧ m'.stack = m.stack := by
  unfold Machine.set_location at h
  repeat' split at h
  all_goals first
    | (cases h; exact ⟨rfl, rfl⟩)
    | (exact absurd h (by simp))

/-- `set_location` with index `None` drops a `Main`'s meta record and
clears a `Copy`'s `copy_index`, leaving every other variable's meta
untouched. -/
theorem set_location_none_meta (m m' : Machine) (inst : VarInstance)
    (h : m.set_location inst none = some m') :
    (∀ name, inst = .Main name →
      m'.meta name = none ∧ ∀ v, v ≠ name → m'.meta v = m.meta v) ∧
    (∀ name, inst = .Copy name →
      (∃ mt, m.meta name = some mt ∧
        m'.meta name = some ⟨mt.main_index, none⟩) ∧
      ∀ v, v ≠ name → m'.meta v = m.meta v) := by
  cases inst with
  | Main name =>
    simp only [Machine.set_location] at h
    split at h
    next mt hmt =>
      split at h
      next hci =>
        cases h
        constructor
        · intro name' hn
          injection hn with hn'
          subst hn'
          constructor
          · show metaRemove m.meta name name = none
            simp [metaRemove]
          · intro v hv
            show metaRemove m.meta name v = m.meta v
            simp [metaRemove, hv]
        · intro name' hn
          exact VarInstance.noConfusion hn
      next hci => exact Option.noConfusion h
    next hmt => exact Option.noConfusion h
  | Copy name =>
    simp only [Machine.set_location] at h
    split at h
    next mt hmt =>
      cases h
      constructor
      · intro name' hn
        exact VarInstance.noConfusion hn
      · intro name' hn
        injection hn with hn'
        subst hn'
        constructor
        · refine ⟨mt, hmt, ?_⟩
          show metaInsert m.meta name _ name = _
          simp [metaInsert]
        · intro v hv
          show metaInsert m.meta name _ v = m.meta v
          simp [metaInsert, hv]
    next hmt => exact Option.noConfusion h

/-- **C7, amended.**  `Machine::pop` removes the top abstract-stack entry,
drops or updates its meta (a `Main`'s record is deleted — legal only with
no outstanding copy —, a `Copy`'s `copy_index` is cleared, every other
variable's meta is untouched), and appends to the pre-instruction stream
exactly a `Rotate{0,0}` anchor immediately followed by a `Pop` data
instruction.  Hence every `Pop` that the *pop operation* emits is
anchored; `Pop`s emitted by `apply` for a user-level `pop` operator carry
no such anchor. -/
theorem pop_emits_anchor (m m' : Machine) (h : m.pop = some m') :
    m.stack ≠ [] ∧ m'.stack = m.stack.dropLast ∧
    m'.code = m.code ++ [.Stack (.Rotate 0 0), .Data .Pop] ∧
    ∃ inst, m.stack.getLast? = some inst ∧
      (∀ name, inst = .Main name →
        m'.meta name = none ∧ ∀ v, v ≠ name → m'.meta v = m.meta v) ∧
      (∀ name, inst = .Copy name →
        (∃ mt, m.meta name = some mt ∧
          m'.meta name = some ⟨mt.main_index, none⟩) ∧
        ∀ v, v ≠ name → m'.meta v = m.meta v) := by
  unfold Machine.pop at h
  cases hl : m.stack.getLast? with
  | none => rw [hl] at h; exact absurd h (by simp)
  | some inst =>
    rw [hl] at h
    have hne : m.stack ≠ [] := by
      intro he; rw [he] at hl; simp at hl
    simp only [bind, Option.bind] at h
    cases hs : Machine.set_location { m with stack := m.stack.dropLast } inst none with
    | none => rw [hs] at h; exact absurd h (by simp)
    | some m1 =>
      rw [hs] at h
      cases h
      obtain ⟨hc, hst⟩ := set_location_preserves _ _ _ _ hs
      have hmeta := set_location_none_meta _ _ _ hs
      exact ⟨hne, hst, by rw [hc], inst, rfl, hmeta.1, hmeta.2⟩

/-- Witness for C7's amended theorem: popping the single-entry machine
`push 0 5` of an otherwise fresh machine removes the entry, appends the
anchored `Pop`, and deletes variable 0's meta record. -/
theorem pop_emits_anchor_witness :
    ∃ m', (Machine.new.push 0 5).pop = some m' ∧
      m'.stack = [] ∧
      m'.code = [.Stack (.Push 5), .Stack (.Rotate 0 0), .Data .Pop] ∧
      m'.meta 0 = none ∧ m'.meta 1 = none := by
  have h := pop_emits_anchor (Machine.new.push 0 5) _ rfl
  obtain ⟨inst, hlast, hmain, -⟩ := h.2.2.2
  have hX : inst = VarInstance.Main 0 :=
    Option.some.inj (hlast.symm.trans (by rfl))
  refine ⟨_, rfl, h.2.1.trans rfl, h.2.2.1.trans rfl, (hmain 0 hX).1, ?_⟩
  exact ((hmain 0 hX).2 1 (by decide)).trans rfl

/-- A lifted panicking computation never produces a user-visible error. -/
theorem bind_liftO_ne_err {α β : Type} (x : Option α) (k : α → GenRes β)
    (msg : String) (hk : ∀ a, k a ≠ .err msg) : (liftO x >>= k) ≠ .err msg := by
  cases x with
  | none => simp [liftO, bind, GenRes.bind]
  | some a =>
    simpa [liftO, bind, GenRes.bind] using hk a

/-- One scheduled statement reports a user-visible error exactly when (and
with exactly the message that) `stmtUserCheck` flags it, regardless of the
current occurrence counts and machine state. -/
theorem schedStatement_err_iff (occurs : List Nat) (m : Machine) (st : Statement)
    (msg : String) :
    schedStatement occurs m st = .err msg ↔ stmtUserCheck st = some msg := by
  obtain ⟨ress, e⟩ := st
  cases e with
  | Const c =>
    cases ress with
    | nil => simp [schedStatement, stmtUserCheck]
    | cons r rest =>
      cases rest with
      | nil =>
        constructor
        · intro h
          exact absurd h (bind_liftO_ne_err _ _ _ (fun a => by simp [pure]))
        · intro h; simp [stmtUserCheck] at h
      | cons r2 rest2 => simp [schedStatement, stmtUserCheck]
  | Op op args =>
    cases hfs : DataInstruction.from_str op with
    | error e =>
      simp [schedStatement, stmtUserCheck, hfs]
    | ok opI =>
      rcases hA : opI.arity with ⟨na, nr⟩
      by_cases h1 : args.length = na
      · by_cases h2 : ress.length = nr
        · constructor
          · intro h
            refine absurd h ?_
            simp only [schedStatement, hfs, hA, h1, h2]
            simp only [ne_eq, not_true_eq_false, if_false]
            refine bind_liftO_ne_err _ _ _ (fun a => ?_)
            rcases a with ⟨occ2, dups, nd⟩
            refine bind_liftO_ne_err _ _ _ (fun m1 => ?_)
            refine bind_liftO_ne_err _ _ _ (fun m2 => ?_)
            refine bind_liftO_ne_err _ _ _ (fun m3 => ?_)
            simp [pure]
          · intro h; simp [stmtUserCheck, hfs, hA, h1, h2] at h
        · simp [schedStatement, stmtUserCheck, hfs, hA, h1, h2]
      · simp [schedStatement, stmtUserCheck, hfs, hA, h1]

/-- A failing scheduler run pinpoints the first offending statement. -/
theorem schedStatements_err (stmts : List Statement) :
    ∀ occurs m msg, schedStatements occurs m stmts = .err msg →
      ∃ k, ∃ hk : k < stmts.length,
        stmtUserCheck (stmts.get ⟨k, hk⟩) = some msg ∧
        ∀ j, ∀ hj : j < k, stmtUserCheck (stmts.get ⟨j, Nat.lt_trans hj hk⟩) = none := by
  induction stmts with
  | nil => intro occurs m msg h; simp [schedStatements] at h
  | cons st rest ih =>
    intro occurs m msg h
    unfold schedStatements at h
    cases hr : schedStatement occurs m st with
    | err m1 =>
      rw [hr] at h
      simp [bind, GenRes.bind] at h
      subst h
      refine ⟨0, Nat.succ_pos _, ?_, ?_⟩
      · exact (schedStatement_err_iff occurs m st m1).mp hr
      · intro j hj; omega
    | fatal =>
      rw [hr] at h
      simp [bind, GenRes.bind] at h
    | ok p =>
      rw [hr] at h
      obtain ⟨occ', m'⟩ := p
      simp only [bind, GenRes.bind] at h
      obtain ⟨k, hk, hchk, hprev⟩ := ih occ' m' msg h
      refine ⟨k + 1, Nat.succ_lt_succ hk, ?_, ?_⟩
      · simpa using hchk
      · intro j hj
        cases j with
        | zero =>
          simp only [List.get]
          by_contra hne
          have : ∃ x, stmtUserCheck st = some x := by
            cases hc : stmtUserCheck st with
            | none => exact absurd hc hne
            | some x => exact ⟨x, rfl⟩
          obtain ⟨x, hx⟩ := this
          have := (schedStatement_err_iff occurs m st x).mpr hx
          rw [this] at hr
          exact GenRes.noConfusion hr
        | succ j' =>
          have hj' : j' < k := Nat.lt_of_succ_lt_succ hj
          simpa using hprev j' hj'

/-- **C8.** `generate` reports a user-visible error (rather than
panicking) exactly at the failure conditions the spec lists — wrong
`Const` result count, unknown operator, operator arity mismatch — with
the corresponding descriptive message, and a whole-block compilation that
errors does so at the first offending statement (all earlier statements
pass the user-visible checks). -/
theorem generate_err_characterization :
    (∀ occurs m st msg,
      schedStatement occurs m st = .err msg ↔ stmtUserCheck st = some msg) ∧
    (∀ rb msg, generate rb = .err msg →
      ∃ k, ∃ hk : k < rb.block.length,
        stmtUserCheck (rb.block.get ⟨k, hk⟩) = some msg ∧
        ∀ j, ∀ hj : j < k, stmtUserCheck (rb.block.get ⟨j, Nat.lt_trans hj hk⟩) = none) := by
  refine ⟨schedStatement_err_iff, fun rb msg h => ?_⟩
  unfold generate at h
  cases hoc : count_occurrences rb with
  | none => rw [hoc] at h; simp [liftO, bind, GenRes.bind] at h
  | some occurs =>
    rw [hoc] at h
    simp only [liftO, bind, GenRes.bind] at h
    cases hs : schedStatements occurs Machine.new rb.block with
    | err m1 =>
      rw [hs] at h
      simp [GenRes.bind] at h
      subst h
      exact schedStatements_err rb.block occurs Machine.new _ hs
    | fatal => rw [hs] at h; simp [GenRes.bind] at h
    | ok p =>
      rw [hs] at h
      obtain ⟨occ', machine⟩ := p
      simp only [GenRes.bind] at h
      refine absurd h ?_
      refine bind_liftO_ne_err _ _ _ (fun spills => ?_)
      refine bind_liftO_ne_err _ _ _ (fun code => ?_)
      simp [pure]

/-- Witness for C8: the unknown-operator block errors with the descriptive
message, at its first offending statement (index 1). -/
theorem generate_err_characterization_witness :
    ∃ k, ∃ hk : k < c8Block.block.length,
      stmtUserCheck (c8Block.block.get ⟨k, hk⟩) = some "Unknown operator: foo" ∧
      ∀ j, ∀ hj : j < k,
        stmtUserCheck (c8Block.block.get ⟨j, Nat.lt_trans hj hk⟩) = none :=
  generate_err_characterization.2 c8Block "Unknown operator: foo" (by rfl)

/-- Shifting one processed argument into the occurrence counts commutes
with the closed-form dup flag. -/
theorem specDup_shift (occurs : List Nat) (a : Var) (rest : List Var) (c : Nat)
    (ha : occurs[a]? = some c) (i : Nat) :
    specDup (occurs.set a (c - 1)) rest i = specDup occurs (a :: rest) (i + 1) := by
  unfold specDup
  have hlen : a < occurs.length := (List.getElem?_eq_some_iff.mp ha).1
  set b := rest.getD i 0 with hb
  have hgd : (a :: rest).getD (i + 1) 0 = b := by simp [hb]
  rw [hgd]
  have htake : (a :: rest).take (i + 1 + 1) = a :: rest.take (i + 1) := by simp
  rw [htake]
  have hcount : (a :: rest.take (i + 1)).count b =
      (rest.take (i + 1)).count b + (if b = a then 1 else 0) := by
    rcases eq_or_ne b a with h | h <;> simp [List.count_cons, h]
  rw [hcount]
  have hset : (occurs.set a (c - 1)).getD b 0 =
      occurs.getD b 0 - (if b = a then 1 else 0) := by
    rcases eq_or_ne b a with h | h
    · subst h
      have e1 : (occurs.set b (c - 1))[b]? = some (c - 1) := by
        rw [List.getElem?_set_self hlen]
      have e2 : occurs[b]? = some c := ha
      rw [List.getD_eq_getElem?_getD, List.getD_eq_getElem?_getD, e1, e2]
      simp
    · have e1 : (occurs.set a (c - 1))[b]? = occurs[b]? :=
        List.getElem?_set_ne (fun hab => h (hab.symm))
      rw [List.getD_eq_getElem?_getD, List.getD_eq_getElem?_getD, e1, if_neg h]
      simp
  rw [hset, decide_eq_decide]
  omega

/-- The source's threaded `dups` computation agrees with the spec-side
closed form, and its `ndups` is the number of `true` flags. -/
theorem computeDups_spec (args : List Var) :
    ∀ occurs occ' ds nd, computeDups occurs args = some (occ', ds, nd) →
      ds.length = args.length ∧ nd = ds.count true ∧
      ∀ i, i < args.length → ds[i]? = some (specDup occurs args i) := by
  induction args with
  | nil =>
    intro occurs occ' ds nd h
    unfold computeDups at h
    simp only [Option.some.injEq, Prod.mk.injEq] at h
    obtain ⟨h1, h2, h3⟩ := h
    subst h2; subst h3
    exact ⟨rfl, rfl, fun i hi => absurd hi (by simp)⟩
  | cons a rest ih =>
    intro occurs occ' ds nd h
    unfold computeDups at h
    split at h
    case h_2 => exact absurd h (by simp)
    case h_1 c ha =>
      split at h
      · exact absurd h (by simp)
      case isFalse hc =>
        split at h
        case h_2 => exact absurd h (by simp)
        case h_1 occ2 ds2 nd2 hrec =>
          simp only [Option.some.injEq, Prod.mk.injEq] at h
          obtain ⟨h1, h2, h3⟩ := h
          obtain ⟨ihlen, ihnd, ihget⟩ := ih (occurs.set a (c - 1)) occ2 ds2 nd2 hrec
          subst h2
          refine ⟨by simp [ihlen], ?_, ?_⟩
          · rw [← h3, ihnd]
            by_cases hd : c - 1 > 0 <;> simp [List.count_cons, hd] <;> omega
          · intro i hi
            cases i with
            | zero =>
              simp only [List.getElem?_cons_zero, Option.some.injEq]
              unfold specDup
              have e2 : occurs.getD ((a :: rest).getD 0 0) 0 = c := by
                simp only [List.getD_cons_zero]
                rw [List.getD_eq_getElem?_getD, ha]
                rfl
              rw [e2]
              have e3 : ((a :: rest).take (0 + 1)).count ((a :: rest).getD 0 0) = 1 := by
                simp
              rw [e3]
            | succ i' =>
              have hi' : i' < rest.length := by simpa using hi
              rw [List.getElem?_cons_succ]
              rw [ihget i' hi']
              rw [specDup_shift occurs a rest c ha i']

/-- One-step unfolding of the staging loop. -/
theorem stageArgs_cons (m : Machine) (nd i : Nat) (arg : Var) (dup : Bool)
    (rest : List (Nat × Var × Bool)) :
    stageArgs m nd ((i, arg, dup) :: rest) =
      match (if dup = true then m.copy_to arg (i - (if dup = true then nd - 1 else nd))
             else m.rotate_to arg (i - (if dup = true then nd - 1 else nd))) with
      | some m' => stageArgs m' (if dup = true then nd - 1 else nd) rest
      | none => none := rfl

/-- One-step unfolding of the plan executor. -/
theorem execPlan_cons (m : Machine) (dup : Bool) (arg : Var) (d : Nat)
    (rest : List (Bool × Var × Nat)) :
    execPlan m ((dup, arg, d) :: rest) =
      match (if dup = true then m.copy_to arg d else m.rotate_to arg d) with
      | some m' => execPlan m' rest
      | none => none := rfl

/-- Generalized staging equivalence over a processed prefix of length `k`:
the source's reversed-enumerate loop with its running `ndups` counter
performs exactly the spec-side plan for positions `k-1 … 0`. -/
theorem stageArgs_take (args : List Var) (ds : List Bool) (h : ds.length = args.length) :
    ∀ k, k ≤ args.length → ∀ m,
      stageArgs m ((ds.take k).count true) (((args.zip ds).enum.take k).reverse) =
      execPlan m (((List.range k).reverse).map fun i =>
        (ds.getD i false, args.getD i 0, i - ((ds.take i).count true))) := by
  intro k
  induction k with
  | zero => intro _ m; simp [stageArgs, execPlan]
  | succ k ihk =>
    intro hk m
    have hk' : k ≤ args.length := Nat.le_of_succ_le hk
    have hkn : k < args.length := hk
    have hdk : k < ds.length := by omega
    have hak : args[k]? = some (args.getD k 0) := by
      rw [List.getElem?_eq_getElem hkn, List.getD_eq_getElem?_getD,
        List.getElem?_eq_getElem hkn]
      rfl
    have hdk2 : ds[k]? = some (ds.getD k false) := by
      rw [List.getElem?_eq_getElem hdk, List.getD_eq_getElem?_getD,
        List.getElem?_eq_getElem hdk]
      rfl
    have hzk : (args.zip ds)[k]? = some (args.getD k 0, ds.getD k false) :=
      List.getElem?_zip_eq_some.mpr ⟨hak, hdk2⟩
    have henumk : (args.zip ds).enum[k]? = some (k, args.getD k 0, ds.getD k false) := by
      rw [List.getElem?_enum, hzk]
      rfl
    have htk : ((args.zip ds).enum.take (k + 1)).reverse =
        (k, args.getD k 0, ds.getD k false) :: ((args.zip ds).enum.take k).reverse := by
      rw [List.take_succ, henumk]
      simp
    have hrg : ((List.range (k + 1)).reverse).map
          (fun i => (ds.getD i false, args.getD i 0, i - ((ds.take i).count true))) =
        (ds.getD k false, args.getD k 0, k - ((ds.take k).count true)) ::
          ((List.range k).reverse).map
            (fun i => (ds.getD i false, args.getD i 0, i - ((ds.take i).count true))) := by
      rw [List.range_succ]
      simp
    rw [htk, hrg]
    have hndstep : (ds.take (k + 1)).count true =
        (ds.take k).count true + (if ds.getD k false then 1 else 0) := by
      rw [List.take_succ, hdk2]
      rcases hb : ds.getD k false <;>
        simp [List.count_append, List.count_cons, hb]
    have hnd' : (if ds.getD k false = true then (ds.take (k + 1)).count true - 1
        else (ds.take (k + 1)).count true) = (ds.take k).count true := by
      rcases hb : ds.getD k false
      · have hb' : ds[k]? = some false := by rw [hdk2, hb]
        simp [List.getD_eq_getElem?_getD, hb'] at hndstep ⊢
        omega
      · have hb' : ds[k]? = some true := by rw [hdk2, hb]
        simp [List.getD_eq_getElem?_getD, hb'] at hndstep ⊢
        omega
    rw [stageArgs_cons, execPlan_cons, hnd']
    cases hact : (if ds.getD k false = true then
        m.copy_to (args.getD k 0) (k - (ds.take k).count true)
      else m.rotate_to (args.getD k 0) (k - (ds.take k).count true)) with
    | none => rfl
    | some m' => exact ihk hk' m'

/-- The staging loop of `generate` performs exactly the spec-described
plan: positions last to first, target depth `i` minus the running counter
after its decrement, `copy_to` on dup positions and `rotate_to` otherwise. -/
theorem stageArgs_spec (args : List Var) (ds : List Bool) (h : ds.length = args.length)
    (m : Machine) :
    stageArgs m (ds.count true) ((args.zip ds).enum.reverse) = execPlan m (specPlan args ds) := by
  have hz : (args.zip ds).enum.length = args.length := by
    simp [List.enum_length, h]
  have := stageArgs_take args ds h args.length (Nat.le_refl _) m
  rw [← hz] at this
  rw [List.take_length] at this
  rw [hz] at this
  have hds : ds.take args.length = ds := by
    rw [← h, List.take_length]
  rw [hds] at this
  exact this

/-- **C3.** The scheduler's per-`Op` decisions: each argument position
gets a dup flag that is true exactly when the argument still has a
remaining use (the occurrence count is decremented before testing, in
position order), `ndups` is the number of dup flags, and the staging loop
processes positions from last to first, placing argument `i` at
`to_depth = i - running_ndups_after_decrement` (equal to `i` minus the
number of dup positions below `i`) via `copy_to` on dup positions and
`rotate_to` otherwise. -/
theorem scheduler_decisions :
    (∀ occurs args occ' ds nd, computeDups occurs args = some (occ', ds, nd) →
      ds.length = args.length ∧ nd = ds.count true ∧
      ∀ i, i < args.length → ds[i]? = some (specDup occurs args i)) ∧
    (∀ args ds m, ds.length = args.length →
      stageArgs m (ds.count true) ((args.zip ds).enum.reverse) =
        execPlan m (specPlan args ds)) :=
  ⟨fun occurs args occ' ds nd h => computeDups_spec args occurs occ' ds nd h,
   fun args ds m h => stageArgs_spec args ds h m⟩

/-- Witness for C3, at the `add a a` statement of the two-copy block:
`occurs = [3, 1]`, both dup flags true, `ndups = 2`. -/
theorem scheduler_decisions_witness :
    (([true, true] : List Bool).length = ([0, 0] : List Var).length ∧
      2 = ([true, true] : List Bool).count true ∧
      ∀ i, i < ([0, 0] : List Var).length →
        ([true, true] : List Bool)[i]? = some (specDup [3, 1] [0, 0] i)) ∧
    stageArgs (Machine.new.push 0 3) (([true, true] : List Bool).count true)
        ((([0, 0] : List Var).zip [true, true]).enum.reverse) =
      execPlan (Machine.new.push 0 3) (specPlan [0, 0] [true, true]) :=
  ⟨scheduler_decisions.1 [3, 1] [0, 0] [1, 1] [true, true] 2 (by rfl),
   scheduler_decisions.2 [0, 0] [true, true] (Machine.new.push 0 3) (by rfl)⟩

/-- Indexing success gives membership. -/
theorem mem_of_getElem?_eq {α : Type} {l : List α} {n : Nat} {a : α}
    (h : l[n]? = some a) : a ∈ l := by
  obtain ⟨hn, rfl⟩ := List.getElem?_eq_some_iff.mp h
  exact List.getElem_mem hn

/-- A pointwise property survives `List.set` when the new element has it. -/
theorem mem_set_of {α : Type} {l : List α} {i : Nat} {b : α} {p : α → Prop}
    (hl : ∀ x ∈ l, p x) (hb : p b) : ∀ x ∈ l.set i b, p x := fun x hx =>
  (List.mem_or_eq_of_mem_set hx).elim (hl x) (fun e => e ▸ hb)

/-- `listSwap` does not introduce new elements. -/
theorem mem_listSwap {α : Type} {l : List α} {i j : Nat} {x : α}
    (hx : x ∈ listSwap l i j) : x ∈ l := by
  unfold listSwap at hx
  cases hi : l[i]? with
  | none => rw [hi] at hx; exact hx
  | some a =>
    cases hj : l[j]? with
    | none => rw [hi, hj] at hx; exact hx
    | some b =>
      rw [hi, hj] at hx
      rcases List.mem_or_eq_of_mem_set hx with hx1 | rfl
      · rcases List.mem_or_eq_of_mem_set hx1 with hx2 | rfl
        · exact hx2
        · exact mem_of_getElem?_eq hj
      · exact mem_of_getElem?_eq hi

/-- A successful planner step certifies the `to_depth < 16` assertion. -/
theorem spillStep_rotOk (k : Nat) (st : SpillState) (i : PreInstruction) (st' : SpillState)
    (h : spillStep k st i = some st') : rotOk i := by
  cases i with
  | Data op => trivial
  | Stack si =>
    cases si with
    | Rotate f t =>
      show t < 16
      by_cases ht : t < 16
      · exact ht
      · simp [spillStep, ht] at h
    | Dup d => trivial
    | Push c => trivial

/-- A successful planner run certifies every `Rotate` in the stream. -/
theorem makeSpillsAux_rotOk (code : List PreInstruction) :
    ∀ k st st', makeSpillsAux k st code = some st' → ∀ i ∈ code, rotOk i := by
  induction code with
  | nil => intro k st st' h i hi; simp at hi
  | cons instr rest ih =>
    intro k st st' h i hi
    unfold makeSpillsAux at h
    cases hs : spillStep k st instr with
    | none => rw [hs] at h; exact absurd h (by simp)
    | some st1 =>
      rw [hs] at h
      rcases List.mem_cons.mp hi with rfl | hmem
      · exact spillStep_rotOk k st i st1 hs
      · exact ih (k + 1) st1 st' h i hmem

theorem set_reachable_at_depthOk {s s' : SpillStatus} {loc : SpillLocation}
    (hs : locDepthOk s) (h : set_reachable_at s loc = some s') : locDepthOk s' := by
  unfold set_reachable_at at h
  by_cases hd : loc.depth < 16
  · rw [if_pos hd] at h
    cases s with
    | Unspillable => cases h; trivial
    | MaybeSpilled l => cases h; exact hd
    | Spilled => cases h; exact hd
    | MaybeRestored l => cases h; exact hs
    | Restored => exact absurd h (by simp)
  · rw [if_neg hd] at h
    exact absurd h (by simp)

theorem ensure_reachable_depthOk {st st' : SpillState} {d : Nat}
    (hst : stateDepthOk st) (h : ensure_reachable st d = some st') : stateDepthOk st' := by
  unfold ensure_reachable at h
  by_cases hd : d ≥ 16
  · rw [if_pos hd] at h
    by_cases hlen : d < st.stack.length
    · rw [if_pos hlen] at h
      cases hidx : st.stack[st.stack.length - 1 - d]? with
      | none => rw [hidx] at h; exact absurd h (by simp)
      | some s =>
        rw [hidx] at h
        have hmem := mem_of_getElem?_eq hidx
        have hsok := hst.1 s hmem
        cases s with
        | Unspillable => exact absurd h (by simp)
        | MaybeSpilled l =>
          cases h
          refine ⟨mem_set_of hst.1 trivial, ?_⟩
          intro sp hsp
          rcases List.mem_append.mp hsp with hsp1 | hsp2
          · exact hst.2 sp hsp1
          · rcases List.mem_singleton.mp hsp2 with rfl
            exact hsok
        | Spilled => cases h; exact hst
        | MaybeRestored l =>
          cases h
          exact ⟨mem_set_of hst.1 trivial, hst.2⟩
        | Restored => exact absurd h (by simp)
    · rw [if_neg hlen] at h
      exact absurd h (by simp)
  · rw [if_neg hd] at h
    cases h
    exact hst

theorem rotateAdjust_depthOk {k : Nat} {st1 st2 : SpillState} {f t fi ti : Nat}
    (hst : stateDepthOk st1) (h : rotateAdjust k st1 f t fi ti = some st2)
    (ht : t < 16) : stateDepthOk st2 := by
  unfold rotateAdjust at h
  split at h
  · split at h
    next s hidx =>
      split at h
      next s' hset =>
        cases h
        have hs := hst.1 s (mem_of_getElem?_eq hidx)
        exact ⟨mem_set_of hst.1 (set_reachable_at_depthOk hs hset), hst.2⟩
      next => exact Option.noConfusion h
    next => exact Option.noConfusion h
  · split at h
    next topS fromS htop hfrom =>
      split at h
      next => exact Option.noConfusion h
      next hu =>
        split at h
        next hsp =>
          cases h
          exact ⟨mem_set_of (mem_set_of hst.1 trivial) trivial, hst.2⟩
        next => exact Option.noConfusion h
    next => exact Option.noConfusion h

theorem dupAdjust_depthOk {k : Nat} {st1 st2 : SpillState} {d : Nat}
    (hst : stateDepthOk st1) (h : dupAdjust k st1 d = some st2) : stateDepthOk st2 := by
  unfold dupAdjust at h
  split at h
  · split at h
    · split at h
      next s hidx =>
        split at h
        next s' hset =>
          cases h
          have hs := hst.1 s (mem_of_getElem?_eq hidx)
          exact ⟨mem_set_of hst.1 (set_reachable_at_depthOk hs hset), hst.2⟩
        next => exact Option.noConfusion h
      next => exact Option.noConfusion h
    · exact Option.noConfusion h
  · cases h
    exact hst

theorem drainSpills_depthOk (drained : List SpillStatus) :
    ∀ spills spills', (∀ sp ∈ spills, sp.location.depth < 16) →
      (∀ s ∈ drained, locDepthOk s) → drainSpills spills drained = some spills' →
      ∀ sp ∈ spills', sp.location.depth < 16 := by
  induction drained with
  | nil =>
    intro spills spills' hsp hdr h
    cases h
    exact hsp
  | cons s rest ih =>
    intro spills spills' hsp hdr h
    cases s with
    | MaybeRestored l =>
      refine ih _ _ ?_ (fun x hx => hdr x (List.mem_cons_of_mem _ hx)) h
      intro sp hspm
      rcases List.mem_append.mp hspm with h1 | h2
      · exact hsp sp h1
      · rcases List.mem_singleton.mp h2 with rfl
        exact hdr (SpillStatus.MaybeRestored l) (List.mem_cons_self _ _)
    | Spilled => exact absurd h (by simp [drainSpills])
    | Unspillable =>
      exact ih _ _ hsp (fun x hx => hdr x (List.mem_cons_of_mem _ hx)) h
    | MaybeSpilled l =>
      exact ih _ _ hsp (fun x hx => hdr x (List.mem_cons_of_mem _ hx)) h
    | Restored =>
      exact ih _ _ hsp (fun x hx => hdr x (List.mem_cons_of_mem _ hx)) h

theorem spillStep_depthOk {k : Nat} {st st' : SpillState} {instr : PreInstruction}
    (h : spillStep k st instr = some st') (hst : stateDepthOk st) : stateDepthOk st' := by
  cases instr with
  | Stack si =>
    cases si with
    | Rotate f t =>
      simp only [spillStep] at h
      split at h
      next ht =>
        split at h
        next => exact Option.noConfusion h
        next h0 =>
          split at h
          next hb =>
            split at h
            next st1 her =>
              split at h
              next st2 hra =>
                cases h
                have h1 := ensure_reachable_depthOk hst her
                have h2 := rotateAdjust_depthOk h1 hra ht
                exact ⟨fun x hx => h2.1 x (mem_listSwap (mem_listSwap hx)), h2.2⟩
              next => exact Option.noConfusion h
            next => exact Option.noConfusion h
          next => exact Option.noConfusion h
      next => exact Option.noConfusion h
    | Dup d =>
      simp only [spillStep] at h
      split at h
      next st1 her =>
        split at h
        next st2 hda =>
          cases h
          have h1 := ensure_reachable_depthOk hst her
          have h2 := dupAdjust_depthOk h1 hda
          refine ⟨?_, h2.2⟩
          intro x hx
          rcases List.mem_append.mp hx with h3 | h4
          · exact h2.1 x h3
          · rcases List.mem_singleton.mp h4 with rfl
            trivial
        next => exact Option.noConfusion h
      next => exact Option.noConfusion h
    | Push c =>
      simp only [spillStep] at h
      cases h
      refine ⟨?_, hst.2⟩
      intro x hx
      rcases List.mem_append.mp hx with h3 | h4
      · exact hst.1 x h3
      · rcases List.mem_singleton.mp h4 with rfl
        show (0 : Nat) < 16
        omega
  | Data op =>
    simp only [spillStep] at h
    split at h
    next hn =>
      split at h
      next spills' hdr =>
        cases h
        constructor
        · intro x hx
          rcases List.mem_append.mp hx with h3 | h4
          · exact hst.1 x (List.mem_of_mem_take h3)
          · obtain ⟨d, hd, rfl⟩ := List.mem_map.mp h4
            have hd2 : d < op.arity.2 := List.mem_range.mp (List.mem_reverse.mp hd)
            have harr : op.arity.2 ≤ 1 := by cases op <;> simp [DataInstruction.arity]
            show d < 16
            omega
        · exact drainSpills_depthOk _ _ _ hst.2
            (fun x hx => hst.1 x (List.mem_of_mem_drop hx)) hdr
      next => exact Option.noConfusion h
    next => exact Option.noConfusion h

theorem dupSwapBound_mono {sw sw' : Nat} {x : Instruction} (hs : sw ≤ sw')
    (h : dupSwapBound sw x) : dupSwapBound sw' x := by
  cases x with
  | Stack si =>
    cases si with
    | Dup d => exact h
    | Swap d => exact ⟨h.1, Nat.le_trans h.2 hs⟩
    | Push c => trivial
  | Control ci => trivial
  | Data op => trivial

theorem register_load_bound (r sw : Nat) : ∀ x ∈ register_load r, dupSwapBound sw x := by
  intro x hx
  rcases List.mem_cons.mp hx with rfl | hx1
  · trivial
  · rcases List.mem_singleton.mp hx1 with rfl
    trivial

theorem register_store_bound (r sw : Nat) : ∀ x ∈ register_store r, dupSwapBound sw x := by
  intro x hx
  rcases List.mem_cons.mp hx with rfl | hx1
  · trivial
  · rcases List.mem_singleton.mp hx1 with rfl
    trivial

theorem rotateDeepLower_bound {ls ls1 : LowerState} {f fi ti : Nat}
    {c1 : List Instruction} (h : rotateDeepLower ls f fi ti = some (c1, ls1)) :
    ∀ x ∈ c1, dupSwapBound 15 x := by
  unfold rotateDeepLower at h
  split at h
  next from_register hfr =>
    split at h
    · split at h
      next top_register htr =>
        cases h
        intro x hx
        simp only [List.append_assoc, List.mem_append] at hx
        rcases hx with h1 | h2 | h3 | h4 | h5 | h6
        · exact register_load_bound _ _ x h1
        · rcases List.mem_singleton.mp h2 with rfl; exact ⟨by omega, by omega⟩
        · exact register_load_bound _ _ x h3
        · rcases List.mem_singleton.mp h4 with rfl; exact ⟨by omega, by omega⟩
        · exact register_store_bound _ _ x h5
        · exact register_store_bound _ _ x h6
      next htr =>
        cases h
        intro x hx
        simp only [List.append_assoc, List.mem_append] at hx
        rcases hx with h1 | h2 | h3
        · exact register_load_bound _ _ x h1
        · rcases List.mem_singleton.mp h2 with rfl; exact ⟨by omega, by omega⟩
        · exact register_store_bound _ _ x h3
      next => exact Option.noConfusion h
    · cases h
      intro x hx
      simp only [List.append_assoc, List.mem_append] at hx
      rcases hx with h1 | h2 | h3
      · exact register_load_bound _ _ x h1
      · rcases List.mem_singleton.mp h2 with rfl; exact ⟨by omega, by omega⟩
      · exact register_store_bound _ _ x h3
  next => exact Option.noConfusion h

theorem rotateLowerPart1_bound {ls ls1 : LowerState} {f fi ti : Nat}
    {c1 : List Instruction} (h : rotateLowerPart1 ls f fi ti = some (c1, ls1)) :
    ∀ x ∈ c1, dupSwapBound 15 x := by
  unfold rotateLowerPart1 at h
  split at h
  next hf =>
    split at h
    next hf0 =>
      cases h
      intro x hx
      rcases List.mem_singleton.mp hx with rfl
      exact ⟨hf0, by omega⟩
    next hf0 =>
      cases h
      intro x hx
      simp at hx
  next hf => exact rotateDeepLower_bound h

theorem lowerInstr_bound {instr : PreInstruction} {ls ls' : LowerState}
    {chunk : List Instruction} (h : lowerInstr instr ls = some (chunk, ls'))
    (hrot : rotOk instr) : ∀ x ∈ chunk, dupSwapBound 15 x := by
  cases instr with
  | Stack si =>
    cases si with
    | Rotate f t =>
      simp only [lowerInstr] at h
      split at h
      next hne =>
        split at h
        next => exact Option.noConfusion h
        next h0 =>
          split at h
          next hb =>
            split at h
            next code1 ls1 hp1 =>
              split at h
              next ht0 =>
                cases h
                intro x hx
                rcases List.mem_append.mp hx with h1 | h2
                · exact rotateLowerPart1_bound hp1 x h1
                · rcases List.mem_singleton.mp h2 with rfl
                  have ht16 : t < 16 := hrot
                  exact ⟨ht0, by omega⟩
              next ht0 =>
                cases h
                exact rotateLowerPart1_bound hp1
            next => exact Option.noConfusion h
          next => exact Option.noConfusion h
      next hne =>
        cases h
        intro x hx
        simp at hx
    | Dup d =>
      simp only [lowerInstr] at h
      split at h
      next hlen =>
        split at h
        next register hreg =>
          cases h
          exact register_load_bound _ _
        next hreg =>
          split at h
          next hd16 =>
            cases h
            intro x hx
            rcases List.mem_singleton.mp hx with rfl
            show d ≤ 15
            omega
          next => exact Option.noConfusion h
        next => exact Option.noConfusion h
      next => exact Option.noConfusion h
    | Push c =>
      simp only [lowerInstr] at h
      cases h
      intro x hx
      rcases List.mem_singleton.mp hx with rfl
      trivial
  | Data op =>
    simp only [lowerInstr] at h
    split at h
    next hn =>
      split at h
      next hall =>
        cases h
        intro x hx
        rcases List.mem_singleton.mp hx with rfl
        trivial
      next => exact Option.noConfusion h
    next => exact Option.noConfusion h

theorem lowerSpills_bound (spl : List Spill) :
    ∀ ls ls' chunk, lowerSpills ls spl = some (chunk, ls') →
      (∀ sp ∈ spl, sp.location.depth < 16) → ∀ x ∈ chunk, dupSwapBound 16 x := by
  induction spl with
  | nil =>
    intro ls ls' chunk h hd x hx
    cases h
    simp at hx
  | cons sp rest ih =>
    intro ls ls' chunk h hd x hx
    obtain ⟨location, outward⟩ := sp
    simp only [lowerSpills] at h
    split at h
    next hlen =>
      split at h
      next register ls1 hreg =>
        split at h
        next tail ls2 htail =>
          cases h
          simp only [List.append_assoc, List.mem_append] at hx
          rcases hx with h1 | h2 | h3 | h4
          · exact register_load_bound _ _ x h1
          · rcases List.mem_singleton.mp h2 with rfl
            refine ⟨by omega, ?_⟩
            have : location.depth < 16 :=
              hd ⟨location, outward⟩ (List.mem_cons_self _ _)
            omega
          · exact register_store_bound _ _ x h3
          · exact ih ls1 ls' tail htail
              (fun q hq => hd q (List.mem_cons_of_mem _ hq)) x h4
        next => exact Option.noConfusion h
      next => exact Option.noConfusion h
    next => exact Option.noConfusion h

theorem lowerAux_bound (code : List PreInstruction) :
    ∀ spills k se ls out, lowerAux spills code k se ls = some out →
      (∀ i ∈ code, rotOk i) → (∀ sp ∈ spills, sp.location.depth < 16) →
      ∀ x ∈ out, dupSwapBound 16 x := by
  induction code with
  | nil =>
    intro spills k se ls out h hrot hd x hx
    cases h
    simp at hx
  | cons instr rest ih =>
    intro spills k se ls out h hrot hd x hx
    simp only [lowerAux] at h
    split at h
    next chunk1 ls1 h1 =>
      split at h
      next chunk2 ls2 h2 =>
        split at h
        next tail h3 =>
          cases h
          simp only [List.append_assoc, List.mem_append] at hx
          rcases hx with hx1 | hx2 | hx3
          · exact dupSwapBound_mono (by omega)
              (lowerInstr_bound h1 (hrot instr (List.mem_cons_self _ _)) x hx1)
          · refine lowerSpills_bound _ _ _ _ h2 ?_ x hx2
            intro q hq
            have : q ∈ spills :=
              ((List.take_sublist _ _).trans (List.drop_sublist _ _)).mem hq
            exact hd q this
          · exact ih spills (k + 1) (spillWindowEnd spills k se) ls2 tail h3
              (fun i hi => hrot i (List.mem_cons_of_mem _ hi)) hd x hx3
        next => exact Option.noConfusion h
      next => exact Option.noConfusion h
    next => exact Option.noConfusion h

theorem makeSpillsAux_depthOk (code : List PreInstruction) :
    ∀ k st st', makeSpillsAux k st code = some st' →
      stateDepthOk st → stateDepthOk st' := by
  induction code with
  | nil =>
    intro k st st' h hst
    cases h
    exact hst
  | cons instr rest ih =>
    intro k st st' h hst
    unfold makeSpillsAux at h
    cases hs : spillStep k st instr with
    | none => rw [hs] at h; exact absurd h (by simp)
    | some st1 =>
      rw [hs] at h
      exact ih (k + 1) st1 st' h (spillStep_depthOk hs hst)

/-- Inversion of a successful `make_spills` run. -/
theorem make_spills_inv {m : Machine} {spills : List Spill}
    (h : make_spills m = some spills) :
    ∃ st, makeSpillsAux 0 { stack := [], spills := [] } m.code = some st ∧
      spills = st.spills.insertionSort spillLE := by
  unfold make_spills at h
  split at h
  next st hst =>
    cases h
    exact ⟨st, hst, rfl⟩
  next => exact Option.noConfusion h

/-- Every spill a successful planner run produces is at an in-window depth. -/
theorem make_spills_depth {m : Machine} {spills : List Spill}
    (h : make_spills m = some spills) : ∀ sp ∈ spills, sp.location.depth < 16 := by
  obtain ⟨st, hst, rfl⟩ := make_spills_inv h
  have hdok := makeSpillsAux_depthOk m.code 0 _ st hst
    ⟨fun x hx => absurd hx (by simp), fun x hx => absurd hx (by simp)⟩
  intro sp hsp
  have : sp ∈ st.spills := (List.perm_insertionSort spillLE st.spills).mem_iff.mp hsp
  exact hdok.2 sp this

/-- A successful planner run certifies every `Rotate` of the machine code. -/
theorem make_spills_rotOk {m : Machine} {spills : List Spill}
    (h : make_spills m = some spills) : ∀ i ∈ m.code, rotOk i := by
  obtain ⟨st, hst, rfl⟩ := make_spills_inv h
  exact makeSpillsAux_rotOk m.code 0 _ st hst

/-- Inversion of a successful `generate` run into its four passes. -/
theorem generate_ok_inv {rb : ResolvedBlock} {out : List Instruction}
    (h : generate rb = .ok out) :
    ∃ occurs occ' machine spills,
      count_occurrences rb = some occurs ∧
      schedStatements occurs Machine.new rb.block = .ok (occ', machine) ∧
      make_spills machine = some spills ∧
      lower machine.code spills = some out := by
  unfold generate at h
  cases hoc : count_occurrences rb with
  | none => rw [hoc] at h; simp [liftO, bind, GenRes.bind] at h
  | some occurs =>
    rw [hoc] at h
    simp only [liftO, bind, GenRes.bind] at h
    cases hs : schedStatements occurs Machine.new rb.block with
    | err m1 => rw [hs] at h; simp [GenRes.bind] at h
    | fatal => rw [hs] at h; simp [GenRes.bind] at h
    | ok p =>
      rw [hs] at h
      obtain ⟨occ', machine⟩ := p
      simp only [GenRes.bind] at h
      cases hms : make_spills machine with
      | none => rw [hms] at h; simp [liftO, GenRes.bind] at h
      | some spills =>
        rw [hms] at h
        simp only [liftO, GenRes.bind] at h
        cases hlo : lower machine.code spills with
        | none => rw [hlo] at h; simp [GenRes.bind] at h
        | some code =>
          rw [hlo] at h
          simp only [GenRes.bind, pure] at h
          cases h
          exact ⟨occurs, occ', machine, spills, rfl, hs, hms, hlo⟩

/-- **C1.** For every block on which `generate` succeeds, every `DUP(d)`
in the emitted instruction sequence satisfies `d ∈ [0,16]` and every
`SWAP(d)` satisfies `d ∈ [1,16]`; in particular `SWAP(0)` is never
emitted. -/
theorem generate_dup_swap_window (rb : ResolvedBlock) (out : List Instruction)
    (h : generate rb = .ok out) :
    ∀ ins ∈ out, (∀ d, ins = .Stack (.Dup d) → d ≤ 16) ∧
      (∀ d, ins = .Stack (.Swap d) → 1 ≤ d ∧ d ≤ 16) := by
  obtain ⟨occurs, occ', machine, spills, hoc, hs, hms, hlo⟩ := generate_ok_inv h
  have hrot := make_spills_rotOk hms
  have hdep := make_spills_depth hms
  have hbound := lowerAux_bound machine.code spills 0 0
    { stack := [], register_count := 0, free_registers := [] } out hlo hrot hdep
  intro ins hins
  have hb := hbound ins hins
  constructor
  · intro d hd
    subst hd
    exact Nat.le_trans hb (by omega)
  · intro d hd
    subst hd
    exact hb

/-- Witness for C1: the tiny block compiles and its output respects the
DUP/SWAP windows. -/
theorem generate_dup_swap_window_witness :
    generate c1Block = GenRes.ok [.Stack (.Push 1), .Data .Pop] ∧
    ∀ ins ∈ [Instruction.Stack (.Push 1), Instruction.Data .Pop],
      (∀ d, ins = .Stack (.Dup d) → d ≤ 16) ∧
      (∀ d, ins = .Stack (.Swap d) → 1 ≤ d ∧ d ≤ 16) :=
  ⟨by rfl, generate_dup_swap_window c1Block [.Stack (.Push 1), .Data .Pop] (by rfl)⟩

/-- `ensure_reachable` on an out-of-window depth leaves the slot
`Spilled`: a slot at depth ≥ 16 (including depth exactly 16) is never
accessed directly. -/
theorem ensure_reachable_deep {st st' : SpillState} {d : Nat} (hd : 16 ≤ d)
    (h : ensure_reachable st d = some st') :
    st'.stack[st.stack.length - 1 - d]? = some .Spilled := by
  unfold ensure_reachable at h
  rw [if_pos (by omega : d ≥ 16)] at h
  split at h
  next hlen =>
    have hidx : st.stack.length - 1 - d < st.stack.length := by omega
    split at h
    next => exact Option.noConfusion h
    next l heq =>
      cases h
      exact List.getElem?_set_self hidx
    next heq =>
      cases h
      exact heq
    next l heq =>
      cases h
      exact List.getElem?_set_self hidx
    next => exact Option.noConfusion h
    next => exact Option.noConfusion h
  next => exact Option.noConfusion h

/-- The tagged lowering erases to the source lowering. -/
theorem lowerAux_eq_lowerAuxT (code : List PreInstruction) :
    ∀ spills k se ls, lowerAux spills code k se ls =
      Option.map (List.map Prod.fst) (lowerAuxT spills code k se ls) := by
  induction code with
  | nil => intro spills k se ls; rfl
  | cons instr rest ih =>
    intro spills k se ls
    simp only [lowerAux, lowerAuxT]
    cases h1 : lowerInstr instr ls with
    | none => rfl
    | some p1 =>
      obtain ⟨chunk1, ls1⟩ := p1
      dsimp only
      cases h2 : lowerSpills ls1 (spillWindow spills k se) with
      | none => rfl
      | some p2 =>
        obtain ⟨chunk2, ls2⟩ := p2
        dsimp only
        rw [ih spills (k + 1) (spillWindowEnd spills k se) ls2]
        cases h3 : lowerAuxT spills rest (k + 1) (spillWindowEnd spills k se) ls2 with
        | none => rfl
        | some tail =>
          simp only [Option.map_some', List.map_append, List.map_map, Option.some.injEq]
          rw [show (Prod.fst ∘ fun x : Instruction => (x, false)) = id from rfl,
              show (Prod.fst ∘ fun x : Instruction => (x, true)) = id from rfl,
              List.map_id, List.map_id]

/-- Bounds on the tagged output: untagged (main-dispatch) instructions
keep all swaps at depth ≤ 15; everything stays within depth 16. -/
theorem lowerAuxT_bound (code : List PreInstruction) :
    ∀ spills k se ls tout, lowerAuxT spills code k se ls = some tout →
      (∀ i ∈ code, rotOk i) → (∀ sp ∈ spills, sp.location.depth < 16) →
      ∀ p ∈ tout, (p.2 = false → dupSwapBound 15 p.1) ∧ dupSwapBound 16 p.1 := by
  induction code with
  | nil =>
    intro spills k se ls tout h hrot hd p hp
    cases h
    simp at hp
  | cons instr rest ih =>
    intro spills k se ls tout h hrot hd p hp
    simp only [lowerAuxT] at h
    split at h
    next chunk1 ls1 h1 =>
      split at h
      next chunk2 ls2 h2 =>
        split at h
        next tail h3 =>
          cases h
          simp only [List.append_assoc, List.mem_append] at hp
          rcases hp with hp1 | hp2 | hp3
          · obtain ⟨x, hx, rfl⟩ := List.mem_map.mp hp1
            have hb := lowerInstr_bound h1 (hrot instr (List.mem_cons_self _ _)) x hx
            exact ⟨fun _ => hb, dupSwapBound_mono (by omega) hb⟩
          · obtain ⟨x, hx, rfl⟩ := List.mem_map.mp hp2
            have hb : dupSwapBound 16 x := by
              refine lowerSpills_bound _ _ _ _ h2 ?_ x hx
              intro q hq
              exact hd q (((List.take_sublist _ _).trans (List.drop_sublist _ _)).mem hq)
            exact ⟨fun hcon => Bool.noConfusion hcon, hb⟩
          · exact ih spills (k + 1) (spillWindowEnd spills k se) ls2 tail h3
              (fun i hi => hrot i (List.mem_cons_of_mem _ hi)) hd p hp3
        next => exact Option.noConfusion h
      next => exact Option.noConfusion h
    next => exact Option.noConfusion h

/-- **C10.** The planner and lowering use a 16-slot window, not the
17-slot hardware window: `ensure_reachable` spills any slot at depth ≥ 16
(leaving it `Spilled`, so a slot at depth exactly 16 is never accessed
directly), every emitted `DUP(d)` of a successful compilation satisfies
`d ≤ 15`, every `SWAP` emitted by the main instruction dispatch (an
in-window rotate) satisfies `d ≤ 15`, and `SWAP(16)` can arise only from
the spill store/load block (`SWAP(location.depth + 1)`). -/
theorem sixteen_slot_window :
    (∀ st st' d, 16 ≤ d → ensure_reachable st d = some st' →
      st'.stack[st.stack.length - 1 - d]? = some .Spilled) ∧
    (∀ rb out, generate rb = .ok out →
      (∀ ins ∈ out, (∀ dd, ins = .Stack (.Dup dd) → dd ≤ 15) ∧
        (∀ dd, ins = .Stack (.Swap dd) → dd ≤ 16)) ∧
      ∃ occurs occ' machine spills tout,
        count_occurrences rb = some occurs ∧
        schedStatements occurs Machine.new rb.block = .ok (occ', machine) ∧
        make_spills machine = some spills ∧
        lowerAuxT spills machine.code 0 0
          { stack := [], register_count := 0, free_registers := [] } = some tout ∧
        tout.map Prod.fst = out ∧
        (∀ p ∈ tout, p.2 = false → ∀ dd, p.1 = .Stack (.Swap dd) → dd ≤ 15) ∧
        (∀ p ∈ tout, p.1 = .Stack (.Swap 16) → p.2 = true)) := by
  refine ⟨fun st st' d hd h => ensure_reachable_deep hd h, fun rb out h => ?_⟩
  obtain ⟨occurs, occ', machine, spills, hoc, hs, hms, hlo⟩ := generate_ok_inv h
  have hrot := make_spills_rotOk hms
  have hdep := make_spills_depth hms
  have herase := lowerAux_eq_lowerAuxT machine.code spills 0 0
    { stack := [], register_count := 0, free_registers := [] }
  rw [show lower machine.code spills = lowerAux spills machine.code 0 0
        { stack := [], register_count := 0, free_registers := [] } from rfl] at hlo
  rw [herase] at hlo
  cases htt : lowerAuxT spills machine.code 0 0
      { stack := [], register_count := 0, free_registers := [] } with
  | none => rw [htt] at hlo; exact absurd hlo (by simp)
  | some tout =>
    rw [htt] at hlo
    simp only [Option.map_some', Option.some.injEq] at hlo
    have htb := lowerAuxT_bound machine.code spills 0 0 _ tout htt hrot hdep
    constructor
    · intro ins hins
      have hins' : ins ∈ List.map Prod.fst tout := by rw [hlo]; exact hins
      obtain ⟨p, hp, rfl⟩ := List.mem_map.mp hins'
      have hb := (htb p hp).2
      constructor
      · intro dd hdd
        rw [hdd] at hb
        exact hb
      · intro dd hdd
        rw [hdd] at hb
        exact hb.2
    · refine ⟨occurs, occ', machine, spills, tout, hoc, hs, hms, htt, hlo, ?_, ?_⟩
      · intro p hp hfalse dd hdd
        have hb := (htb p hp).1 hfalse
        rw [hdd] at hb
        exact hb.2
      · intro p hp h16
        cases hpt : p.2 with
        | false =>
          have hb := (htb p hp).1 hpt
          rw [h16] at hb
          obtain ⟨-, hb2⟩ := hb
          omega
        | true => rfl

/-- Witness for C10, at the `c1Block` compilation. -/
theorem sixteen_slot_window_witness :
    (∀ ins ∈ [Instruction.Stack (.Push 1), Instruction.Data .Pop],
      (∀ dd, ins = .Stack (.Dup dd) → dd ≤ 15) ∧
      (∀ dd, ins = .Stack (.Swap dd) → dd ≤ 16)) ∧
    ∃ occurs occ' machine spills tout,
      count_occurrences c1Block = some occurs ∧
      schedStatements occurs Machine.new c1Block.block = .ok (occ', machine) ∧
      make_spills machine = some spills ∧
      lowerAuxT spills machine.code 0 0
        { stack := [], register_count := 0, free_registers := [] } = some tout ∧
      tout.map Prod.fst = [Instruction.Stack (.Push 1), Instruction.Data .Pop] ∧
      (∀ p ∈ tout, p.2 = false → ∀ dd, p.1 = .Stack (.Swap dd) → dd ≤ 15) ∧
      (∀ p ∈ tout, p.1 = .Stack (.Swap 16) → p.2 = true) :=
  sixteen_slot_window.2 c1Block [.Stack (.Push 1), .Data .Pop] (by rfl)

/-- Setting an in-range index is, up to permutation, replacing that
element at the front of the remainder. -/
theorem set_perm_cons_eraseIdx {α : Type} :
    ∀ (l : List α) (i : Nat) (b : α), i < l.length →
      (l.set i b).Perm (b :: l.eraseIdx i) := by
  intro l
  induction l with
  | nil => intro i b h; simp at h
  | cons x xs ih =>
    intro i b h
    cases i with
    | zero => simp
    | succ n =>
      have hn : n < xs.length := by simpa using h
      simp only [List.set_cons_succ, List.eraseIdx_cons_succ]
      exact ((ih n b hn).cons x).trans (List.Perm.swap b x _)

/-- A list is, up to permutation, any one of its elements at the front of
the remainder. -/
theorem perm_cons_eraseIdx {α : Type} :
    ∀ (l : List α) (i : Nat) (a : α), l[i]? = some a →
      l.Perm (a :: l.eraseIdx i) := by
  intro l
  induction l with
  | nil => intro i a h; simp at h
  | cons x xs ih =>
    intro i a h
    cases i with
    | zero =>
      simp only [List.getElem?_cons_zero, Option.some.injEq] at h
      subst h
      simp
    | succ n =>
      rw [List.getElem?_cons_succ] at h
      simp only [List.eraseIdx_cons_succ]
      exact ((ih n a h).cons x).trans (List.Perm.swap a x _)

/-- A double `set` realizing a swap is a permutation. -/
theorem set_set_swap_perm {α : Type} :
    ∀ (l : List α) (i j : Nat) (a b : α), l[i]? = some a → l[j]? = some b →
      ((l.set i b).set j a).Perm l := by
  intro l
  induction l with
  | nil => intro i j a b h1 h2; simp at h1
  | cons x xs ih =>
    intro i j a b h1 h2
    cases i with
    | zero =>
      simp only [List.getElem?_cons_zero, Option.some.injEq] at h1
      subst h1
      cases j with
      | zero =>
        simp only [List.getElem?_cons_zero, Option.some.injEq] at h2
        subst h2
        simp
      | succ m =>
        rw [List.getElem?_cons_succ] at h2
        simp only [List.set_cons_zero, List.set_cons_succ]
        have hm : m < xs.length := (List.getElem?_eq_some_iff.mp h2).1
        refine ((set_perm_cons_eraseIdx xs m x hm).cons b).trans ?_
        refine (List.Perm.swap x b _).trans ?_
        exact ((perm_cons_eraseIdx xs m b h2).symm.cons x)
    | succ n =>
      rw [List.getElem?_cons_succ] at h1
      cases j with
      | zero =>
        simp only [List.getElem?_cons_zero, Option.some.injEq] at h2
        subst h2
        simp only [List.set_cons_succ, List.set_cons_zero]
        have hn : n < xs.length := (List.getElem?_eq_some_iff.mp h1).1
        refine ((set_perm_cons_eraseIdx xs n x hn).cons a).trans ?_
        refine (List.Perm.swap x a _).trans ?_
        exact ((perm_cons_eraseIdx xs n a h1).symm.cons x)
      | succ m =>
        rw [List.getElem?_cons_succ] at h2
        simp only [List.set_cons_succ]
        exact (ih n m a b h1 h2).cons x

/-- `listSwap` is a permutation (identity when an index is out of range). -/
theorem listSwap_perm {α : Type} (l : List α) (i j : Nat) :
    (listSwap l i j).Perm l := by
  unfold listSwap
  cases hi : l[i]? with
  | none => exact List.Perm.refl l
  | some a =>
    cases hj : l[j]? with
    | none => exact List.Perm.refl l
    | some b => exact set_set_swap_perm l i j a b hi hj

theorem filterMap_cons_toList {α β : Type} (f : α → Option β) (x : α) (l : List α) :
    List.filterMap f (x :: l) = (f x).toList ++ List.filterMap f l := by
  cases h : f x <;> simp [List.filterMap_cons, h]

/-- Count accounting for a single `set`. -/
theorem cisStack_set_count {l : List SpillStatus} {i : Nat} {s : SpillStatus}
    (b : SpillStatus) (h : l[i]? = some s) (x : Nat) :
    (cisStack (l.set i b)).count x + ((statusCI s).toList).count x =
      (cisStack l).count x + ((statusCI b).toList).count x := by
  have hi : i < l.length := (List.getElem?_eq_some_iff.mp h).1
  have p1 : (cisStack (l.set i b)).Perm ((statusCI b).toList ++ cisStack (l.eraseIdx i)) := by
    have := (set_perm_cons_eraseIdx l i b hi).filterMap statusCI
    rwa [filterMap_cons_toList] at this
  have p2 : (cisStack l).Perm ((statusCI s).toList ++ cisStack (l.eraseIdx i)) := by
    have := (perm_cons_eraseIdx l i s h).filterMap statusCI
    rwa [filterMap_cons_toList] at this
  rw [p1.count_eq x, p2.count_eq x, List.count_append, List.count_append]
  omega

/-- `set_reachable_at` replaces a status' recorded index by (at most) the
new location's index. -/
theorem set_reachable_at_count {s s' : SpillStatus} {loc : SpillLocation}
    (h : set_reachable_at s loc = some s') (x : Nat) :
    ((statusCI s').toList).count x ≤
      ((statusCI s).toList).count x + ([loc.code_index] : List Nat).count x := by
  unfold set_reachable_at at h
  split at h
  · cases s with
    | Unspillable => cases h; simp [statusCI]
    | MaybeSpilled l =>
      cases h
      simp only [statusCI, Option.toList_some]
      exact Nat.le_add_left _ _
    | Spilled =>
      cases h
      simp only [statusCI, Option.toList_some]
      exact Nat.le_add_left _ _
    | MaybeRestored l =>
      cases h
      exact Nat.le_add_right _ _
    | Restored => exact Option.noConfusion h
  · exact Option.noConfusion h

/-- `ensure_reachable` never increases any tracked index count. -/
theorem ensure_reachable_count {st st' : SpillState} {d : Nat}
    (h : ensure_reachable st d = some st') (x : Nat) :
    (stateCIs st').count x ≤ (stateCIs st).count x := by
  unfold ensure_reachable at h
  split at h
  · split at h
    next hlen =>
      split at h
      next => exact Option.noConfusion h
      next l heq =>
        cases h
        simp only [stateCIs, List.map_append, List.map_cons, List.map_nil,
          List.count_append]
        have hc := cisStack_set_count SpillStatus.Spilled heq x
        simp only [statusCI, Option.toList_some, Option.toList_none,
          List.count_nil] at hc
        omega
      next heq =>
        cases h
        exact Nat.le_refl _
      next l heq =>
        cases h
        simp only [stateCIs, List.count_append]
        have hc := cisStack_set_count SpillStatus.Spilled heq x
        simp only [statusCI, Option.toList_some, Option.toList_none,
          List.count_nil] at hc
        omega
      next => exact Option.noConfusion h
      next => exact Option.noConfusion h
    next => exact Option.noConfusion h
  · cases h
    exact Nat.le_refl _

theorem rotateAdjust_count {k : Nat} {st1 st2 : SpillState} {f t fi ti : Nat}
    (h : rotateAdjust k st1 f t fi ti = some st2) (x : Nat) :
    (stateCIs st2).count x ≤ (stateCIs st1).count x + ([k] : List Nat).count x := by
  unfold rotateAdjust at h
  split at h
  · split at h
    next s hidx =>
      split at h
      next s' hset =>
        cases h
        simp only [stateCIs, List.count_append]
        have hc := cisStack_set_count s' hidx x
        have hb := set_reachable_at_count hset x
        dsimp only at hb
        omega
      next => exact Option.noConfusion h
    next => exact Option.noConfusion h
  · split at h
    next topS fromS htop hfrom =>
      split at h
      next => exact Option.noConfusion h
      next hu =>
        split at h
        next hsp =>
          cases h
          simp only [stateCIs, List.count_append]
          have hc1 := cisStack_set_count SpillStatus.Spilled htop x
          have hc2 := cisStack_set_count SpillStatus.Restored hsp x
          simp only [statusCI, Option.toList_none, List.count_nil] at hc1 hc2
          omega
        next => exact Option.noConfusion h
    next => exact Option.noConfusion h

theorem dupAdjust_count {k : Nat} {st1 st2 : SpillState} {d : Nat}
    (h : dupAdjust k st1 d = some st2) (x : Nat) :
    (stateCIs st2).count x ≤ (stateCIs st1).count x + ([k] : List Nat).count x := by
  unfold dupAdjust at h
  split at h
  · split at h
    · split at h
      next s hidx =>
        split at h
        next s' hset =>
          cases h
          simp only [stateCIs, List.count_append]
          have hc := cisStack_set_count s' hidx x
          have hb := set_reachable_at_count hset x
          dsimp only at hb
          omega
        next => exact Option.noConfusion h
      next => exact Option.noConfusion h
    · exact Option.noConfusion h
  · cases h
    exact Nat.le_add_right _ _

/-- `drainSpills` appends exactly the inward records of the
`MaybeRestored` statuses it consumes, in order. -/
theorem drainSpills_eq (drained : List SpillStatus) :
    ∀ spills spills', drainSpills spills drained = some spills' →
      spills' = spills ++ drained.filterMap restoredSpill := by
  induction drained with
  | nil =>
    intro spills spills' h
    cases h
    simp
  | cons s rest ih =>
    intro spills spills' h
    cases s with
    | MaybeRestored l =>
      have := ih _ _ h
      rw [this]
      simp [List.filterMap_cons, restoredSpill]
    | Spilled => exact absurd h (by simp [drainSpills])
    | Unspillable =>
      have := ih _ _ h
      rw [this]
      simp [List.filterMap_cons, restoredSpill]
    | MaybeSpilled l2 =>
      have := ih _ _ h
      rw [this]
      simp [List.filterMap_cons, restoredSpill]
    | Restored =>
      have := ih _ _ h
      rw [this]
      simp [List.filterMap_cons, restoredSpill]

/-- `filterMap` monotonicity: if `f` succeeds only where `g` succeeds with
the same value, the `f`-image is a sublist of the `g`-image. -/
theorem filterMap_sublist_of_imp {α β : Type} (f g : α → Option β)
    (hfg : ∀ a c, f a = some c → g a = some c) :
    ∀ l : List α, (l.filterMap f).Sublist (l.filterMap g) := by
  intro l
  induction l with
  | nil => simp
  | cons a rest ih =>
    cases hf : f a with
    | some c =>
      rw [List.filterMap_cons, hf, List.filterMap_cons, hfg a c hf]
      exact ih.cons₂ c
    | none =>
      rw [List.filterMap_cons, hf, List.filterMap_cons]
      cases hg : g a with
      | some d => exact ih.cons d
      | none => exact ih

/-- Count accounting for the `Data` arm of the planner. -/
theorem spillStep_count {k : Nat} {st st' : SpillState} {instr : PreInstruction}
    (h : spillStep k st instr = some st') (x : Nat) :
    (stateCIs st').count x ≤ (stateCIs st).count x + ([k] : List Nat).count x := by
  cases instr with
  | Stack si =>
    cases si with
    | Rotate f t =>
      simp only [spillStep] at h
      split at h
      next ht =>
        split at h
        next => exact Option.noConfusion h
        next h0 =>
          split at h
          next hb =>
            split at h
            next st1 her =>
              split at h
              next st2 hra =>
                cases h
                have e1 : (stateCIs { st2 with
                    stack := listSwap (listSwap st2.stack (st.stack.length - 1 - f)
                      (st.stack.length - 1)) (st.stack.length - 1)
                      (st.stack.length - 1 - t) }).count x = (stateCIs st2).count x := by
                  simp only [stateCIs, List.count_append]
                  have p : (cisStack (listSwap (listSwap st2.stack (st.stack.length - 1 - f)
                      (st.stack.length - 1)) (st.stack.length - 1)
                      (st.stack.length - 1 - t))).Perm (cisStack st2.stack) :=
                    ((listSwap_perm _ _ _).trans (listSwap_perm _ _ _)).filterMap statusCI
                  rw [p.count_eq x]
                rw [e1]
                have h1 := ensure_reachable_count her x
                have h2 := rotateAdjust_count hra x
                omega
              next => exact Option.noConfusion h
            next => exact Option.noConfusion h
          next => exact Option.noConfusion h
      next => exact Option.noConfusion h
    | Dup d =>
      simp only [spillStep] at h
      split at h
      next st1 her =>
        split at h
        next st2 hda =>
          cases h
          have e1 : (stateCIs { st2 with stack := st2.stack ++ [SpillStatus.Unspillable] }).count x
              = (stateCIs st2).count x := by
            simp only [stateCIs, cisStack, List.filterMap_append, List.count_append]
            simp [statusCI]
          rw [e1]
          have h1 := ensure_reachable_count her x
          have h2 := dupAdjust_count hda x
          omega
        next => exact Option.noConfusion h
      next => exact Option.noConfusion h
    | Push c =>
      simp only [spillStep] at h
      cases h
      simp only [stateCIs, cisStack, List.filterMap_append, List.count_append]
      have : (List.filterMap statusCI [SpillStatus.MaybeSpilled { code_index := k, depth := 0 }])
          = [k] := by simp [statusCI]
      rw [this]
      omega
  | Data op =>
    simp only [spillStep] at h
    split at h
    next hn =>
      split at h
      next spills' hdr =>
        cases h
        have hsp := drainSpills_eq _ _ _ hdr
        subst hsp
        simp only [stateCIs, cisStack, List.filterMap_append, List.map_append,
          List.count_append]
        -- the inward records' indices are a sublist of the dropped statuses' indices
        have hsub : ((st.stack.drop (st.stack.length - op.arity.1)).filterMap (fun s =>
            (restoredSpill s).map (fun sp => sp.location.code_index))).Sublist
            ((st.stack.drop (st.stack.length - op.arity.1)).filterMap statusCI) := by
          refine filterMap_sublist_of_imp _ _ ?_ _
          intro a c hc
          cases a <;> simp_all [statusCI, restoredSpill]
        have hmapfm : (List.map (fun sp => sp.location.code_index)
            ((st.stack.drop (st.stack.length - op.arity.1)).filterMap restoredSpill)) =
            ((st.stack.drop (st.stack.length - op.arity.1)).filterMap (fun s =>
              (restoredSpill s).map (fun sp => sp.location.code_index))) := by
          rw [List.map_filterMap]
        have hsplit : (cisStack st.stack).count x =
            (cisStack (st.stack.take (st.stack.length - op.arity.1))).count x +
            (cisStack (st.stack.drop (st.stack.length - op.arity.1))).count x := by
          simp only [cisStack]
          conv_rhs => rw [← List.count_append, ← List.filterMap_append,
            List.take_append_drop]
        have hnew : (List.filterMap statusCI ((List.range op.arity.2).reverse.map fun depth =>
            SpillStatus.MaybeSpilled { code_index := k, depth := depth })).count x ≤
            ([k] : List Nat).count x := by
          have hr1 : (List.range 1) = [0] := rfl
          cases op <;>
            simp [DataInstruction.arity, statusCI, hr1, List.filterMap_cons,
              Function.comp]
        have hcle := hsub.count_le x
        rw [hmapfm]
        simp only [cisStack] at hsplit hnew hcle ⊢
        omega
      next => exact Option.noConfusion h
    next => exact Option.noConfusion h

theorem spillStep_inv {k : Nat} {st st' : SpillState} {instr : PreInstruction}
    (h : spillStep k st instr = some st') (hinv : spillInv k st) :
    spillInv (k + 1) st' := by
  constructor
  · rw [List.nodup_iff_count_le_one]
    intro a
    have h1 := spillStep_count h a
    by_cases hak : a = k
    · subst hak
      have hk0 : (stateCIs st).count a = 0 :=
        List.count_eq_zero.mpr (fun hmem => absurd (hinv.2 a hmem) (by omega))
      have hk1 : ([a] : List Nat).count a = 1 := by simp
      omega
    · have hz : ([k] : List Nat).count a = 0 := by simp [hak]
      have h2 := List.nodup_iff_count_le_one.mp hinv.1 a
      omega
  · intro c hc
    have h1 := spillStep_count h c
    by_cases hck : c = k
    · omega
    · have hz : ([k] : List Nat).count c = 0 := by simp [hck]
      have hpos : 0 < (stateCIs st').count c := List.count_pos_iff.mpr hc
      have hmem : c ∈ stateCIs st := List.count_pos_iff.mp (by omega)
      exact Nat.lt_succ_of_lt (hinv.2 c hmem)

theorem makeSpillsAux_inv (code : List PreInstruction) :
    ∀ k st st', makeSpillsAux k st code = some st' → spillInv k st →
      spillInv (k + code.length) st' := by
  induction code with
  | nil =>
    intro k st st' h hinv
    cases h
    exact ⟨hinv.1, fun c hc => by have := hinv.2 c hc; omega⟩
  | cons instr rest ih =>
    intro k st st' h hinv
    unfold makeSpillsAux at h
    cases hs : spillStep k st instr with
    | none => rw [hs] at h; exact absurd h (by simp)
    | some st1 =>
      rw [hs] at h
      have := ih (k + 1) st1 st' h (spillStep_inv hs hinv)
      exact ⟨this.1, fun c hc => by have := this.2 c hc; simp at * ; omega⟩

/-- All code indices in a successful planner run's spill list are
pairwise distinct. -/
theorem make_spills_nodup_ci {m : Machine} {spills : List Spill}
    (h : make_spills m = some spills) :
    (spills.map (fun sp => sp.location.code_index)).Nodup := by
  obtain ⟨st, hst, rfl⟩ := make_spills_inv h
  have hinv := makeSpillsAux_inv m.code 0 _ st hst
    ⟨by simp [stateCIs, cisStack], fun c hc => by simp [stateCIs, cisStack] at hc⟩
  have hnd : (stateCIs st).Nodup := hinv.1
  have hspills : (st.spills.map (fun sp => sp.location.code_index)).Nodup :=
    ((List.nodup_append.mp hnd).2).1
  have hperm := (List.perm_insertionSort spillLE st.spills).map
    (fun sp => sp.location.code_index)
  exact hperm.nodup_iff.mpr hspills

/-- **C5.** The spill list returned by the planner is sorted by
`code_index` ascending, and no inward spill ever appears before an
outward spill with the same `code_index` (in fact the code indices of a
successful run's spills are pairwise distinct, so the condition holds
vacuously for any pair). -/
theorem spill_list_order (m : Machine) (spills : List Spill)
    (h : make_spills m = some spills) :
    spills.Pairwise (fun a b => a.location.code_index ≤ b.location.code_index) ∧
    spills.Pairwise (fun a b => ¬(a.outward = false ∧ b.outward = true ∧
      a.location.code_index = b.location.code_index)) := by
  constructor
  · obtain ⟨st, hst, rfl⟩ := make_spills_inv h
    exact List.sorted_insertionSort spillLE st.spills
  · have hnd := make_spills_nodup_ci h
    have hpw : spills.Pairwise (fun a b =>
        a.location.code_index ≠ b.location.code_index) :=
      List.pairwise_map.mp hnd
    exact hpw.imp (fun hne hcon => hne hcon.2.2)

/-- Witness for C5: the deep-rotate machine produces the singleton spill
list `[outward at code index 0, depth 0]`, sorted and kind-consistent. -/
theorem spill_list_order_witness :
    make_spills c5Machine = some [(⟨⟨0, 0⟩, true⟩ : Spill)] ∧
    ([(⟨⟨0, 0⟩, true⟩ : Spill)]).Pairwise (fun a b =>
      a.location.code_index ≤ b.location.code_index) ∧
    ([(⟨⟨0, 0⟩, true⟩ : Spill)]).Pairwise (fun a b =>
      ¬(a.outward = false ∧ b.outward = true ∧
        a.location.code_index = b.location.code_index)) :=
  ⟨by rfl, spill_list_order c5Machine _ (by rfl)⟩
